import Mathlib

set_option maxHeartbeats 1000000

/-! # A shallow embedding of the snapraid scan engine (src/scan.c)

The development models the parity block allocator (`scan_file_remove`,
`scan_file_insert`), the per-entry reconciler (`scan_file`, `scan_link`),
the post-scan empty-disk guard and the per-disk driver loop of
`state_scan` as pure Lean functions.  Machine integers become `Nat`/`Int`,
hashes become byte lists, fatal `exit(EXIT_FAILURE)` paths become
`Except`/`Option` failures, the tommy hash tables become list searches,
and the blocking OS calls of the directory walk are abstracted by a list
of pre-statted directory entries. -/

/-- HASH_SIZE from the C source. -/
def HASH_SIZE : Nat := 16

/-- A block hash: a byte list (`memset`/`memcpy` become list operations). -/
abbrev Hash := List Nat

/-- An all-zero hash, the result of `memset(hash, 0, HASH_SIZE)`. -/
def zeroHash : Hash := List.replicate HASH_SIZE 0

/-- Block states (`BLOCK_STATE_BLK/CHG/NEW/DELETED`). -/
inductive BlockState
  | BLK
  | CHG
  | NEW
  | DELETED
deriving DecidableEq, Repr, Inhabited

/-- One block of a file (`struct snapraid_block`): its parity slot, its
state and its hash. -/
structure SBlock where
  parity_pos : Nat
  state : BlockState
  hash : Hash
deriving DecidableEq, Repr, Inhabited

/-- One cell of the parity block array `disk->blockarr`:
`BLOCK_EMPTY`, a reference to a file block, or a deleted block retaining
a hash (`struct snapraid_deleted`). -/
inductive Cell
  | empty : Cell
  | file : SBlock → Cell
  | deleted : Hash → Cell
deriving DecidableEq, Repr, Inhabited

/-- `block_has_file`: the cell holds a file-block reference. -/
def isFileCell : Cell → Bool
  | .file _ => true
  | _ => false

/-- The cell is `BLOCK_EMPTY`. -/
def isEmptyCell : Cell → Bool
  | .empty => true
  | _ => false

/-- The parity block map of one disk: the cell array `disk->blockarr`
together with the cursor `disk->first_free_block`. -/
structure BlockMap where
  arr : List Cell
  ffb : Nat
deriving DecidableEq, Repr, Inhabited

/-- The hash retained by the delete path of `scan_file_remove` for one
block, by block state: `BLK` keeps the hash, `CHG`/`NEW` zero it unless
`clear_undeterminate_hash` is set, anything else is a fatal
inconsistency (`none`). -/
def deletedHash (clear : Bool) (b : SBlock) : Option Hash :=
  match b.state with
  | .BLK => some b.hash
  | .CHG => some (if clear then b.hash else zeroHash)
  | .NEW => some (if clear then b.hash else zeroHash)
  | .DELETED => none

/-- The block loop of `scan_file_remove` (src/scan.c lines 160-208): for
each block of the removed file, lower `first_free_block` to the block's
parity position, compute the retained hash by state, and overwrite the
block-map cell with a deleted cell holding that hash.  The C code also
keeps the deleted cell alive on `disk->deletedlist`; ownership management
has no observable effect here beyond the cell itself. -/
def removeBlocks (clear : Bool) (m : BlockMap) : List SBlock → Option BlockMap
  | [] => some m
  | b :: rest =>
    match deletedHash clear b with
    | none => none
    | some h =>
      removeBlocks clear ⟨m.arr.set b.parity_pos (Cell.deleted h), min m.ffb b.parity_pos⟩ rest

/-- The slot-search loop of `scan_file_insert`, with an explicit fuel
argument for structural recursion; out-of-range lookups return the
current position exactly as the `block_pos < block_max` loop bound
does. -/
def findFreeGo (arr : List Cell) : Nat → Nat → Nat
  | 0, pos => pos
  | Nat.succ fuel, pos =>
    match arr[pos]? with
    | some c => if isFileCell c then findFreeGo arr fuel (pos + 1) else pos
    | none => pos

/-- The slot-search loop of `scan_file_insert` (src/scan.c line 240):
starting at `pos`, skip cells holding a file-block reference; stops at
the first non-file cell or at the end of the array. -/
def findFree (arr : List Cell) (pos : Nat) : Nat :=
  findFreeGo arr (arr.length - pos) pos

/-- The block produced when `scan_file_insert` claims slot `p` whose cell
is `c`: an empty cell gives a `NEW` block, a deleted cell gives a `CHG`
block carrying the cell's hash, which the C code has first zeroed via
`memset` unless `clear_undeterminate_hash` is set (src/scan.c lines
255-277).  A file cell is never claimed; the catch-all mirrors the `else`
shape of the source. -/
def claimCell (clear : Bool) (p : Nat) (c : Cell) : SBlock :=
  match c with
  | Cell.empty => ⟨p, BlockState.NEW, zeroHash⟩
  | Cell.file _ => ⟨p, BlockState.NEW, zeroHash⟩
  | Cell.deleted h => ⟨p, BlockState.CHG, if clear then h else zeroHash⟩

/-- The array after the grow step of one iteration of the
`scan_file_insert` loop: when the claimed slot `p` is the array length,
`tommy_arrayblk_grow` appends one `BLOCK_EMPTY` cell. -/
def stepArr1 (arr : List Cell) (p : Nat) : List Cell :=
  if p = arr.length then arr ++ [Cell.empty] else arr

/-- The block claimed by one iteration of the `scan_file_insert` loop
starting at cursor `pos`. -/
def stepBlock (clear : Bool) (arr : List Cell) (pos : Nat) : SBlock :=
  claimCell clear (findFree arr pos)
    (((stepArr1 arr (findFree arr pos))[findFree arr pos]?).getD Cell.empty)

/-- The array after one iteration of the `scan_file_insert` loop: the
claimed cell is overwritten with a reference to the new file block. -/
def stepArr2 (clear : Bool) (arr : List Cell) (pos : Nat) : List Cell :=
  (stepArr1 arr (findFree arr pos)).set (findFree arr pos) (Cell.file (stepBlock clear arr pos))

/-- The block-allocation loop of `scan_file_insert` (src/scan.c lines
236-281), iterated over the file's `blockmax` blocks.  Returns the new
cell array, the last value of `block_pos`, and the file's block vector
in index order.  Growing the array appends a `BLOCK_EMPTY` cell which is
immediately claimed. -/
def insertGo (clear : Bool) (arr : List Cell) (pos : Nat) : Nat → List Cell × Nat × List SBlock
  | 0 => (arr, pos, [])
  | Nat.succ n =>
    let r := insertGo clear (stepArr2 clear arr pos) (findFree arr pos) n
    (r.1, r.2.1, stepBlock clear arr pos :: r.2.2)

/-- The block-allocation phase of `scan_file_insert` for a file of
`n = blockmax` blocks: run the loop from `first_free_block`; if at least
one block was allocated, advance `first_free_block` to the last claimed
slot plus one (src/scan.c lines 282-285). -/
def insertBlocks (clear : Bool) (m : BlockMap) (n : Nat) : BlockMap × List SBlock :=
  let r := insertGo clear m.arr m.ffb n
  (⟨r.1, if n = 0 then m.ffb else r.2.1 + 1⟩, r.2.2)

/-- Number of blocks of a file: `ceil(size / block_size)`, as computed by
`file_alloc`. -/
def blockmaxOf (bsz size : Nat) : Nat := (size + bsz - 1) / bsz

/-- Index of the first `BLOCK_EMPTY` cell of the array (the array length
when there is none); the upper bound of invariant I3. -/
def firstEmpty : List Cell → Nat
  | [] => 0
  | c :: rest => if isEmptyCell c then 0 else firstEmpty rest + 1

/-! ## Small list helpers -/

theorem getElem?_set_self_of_lt {α : Type} (l : List α) (i : Nat) (v : α) (h : i < l.length) :
    (l.set i v)[i]? = some v := by
  induction l generalizing i with
  | nil => simp at h
  | cons a t ih =>
    cases i with
    | zero => simp [List.set]
    | succ j => simpa [List.set] using ih j (by simpa using h)

theorem getElem?_set_other {α : Type} (l : List α) (i j : Nat) (v : α) (h : i ≠ j) :
    (l.set i v)[j]? = l[j]? := by
  induction l generalizing i j with
  | nil => simp
  | cons a t ih =>
    cases i with
    | zero =>
      cases j with
      | zero => exact absurd rfl h
      | succ k => simp [List.set]
    | succ i' =>
      cases j with
      | zero => simp [List.set]
      | succ k => simpa [List.set] using ih i' k (by omega)

theorem getElem?_append_l {α : Type} (l l' : List α) (i : Nat) (h : i < l.length) :
    (l ++ l')[i]? = l[i]? := by
  induction l generalizing i with
  | nil => simp at h
  | cons a t ih =>
    cases i with
    | zero => simp
    | succ j => simpa using ih j (by simpa using h)

theorem getElem?_append_len {α : Type} (l : List α) (x : α) :
    (l ++ [x])[l.length]? = some x := by
  induction l with
  | nil => simp
  | cons a t ih => simpa using ih

theorem set_self_of_getElem? {α : Type} (l : List α) (i : Nat) (v : α) (h : l[i]? = some v) :
    l.set i v = l := by
  induction l generalizing i with
  | nil => simp
  | cons a t ih =>
    cases i with
    | zero => simp at h; simp [List.set, h]
    | succ j =>
      simp only [List.set]
      simp only [List.getElem?_cons_succ] at h
      rw [ih j h]

/-! ## Lemmas about the delete path -/

theorem removeBlocks_length (clear : Bool) :
    ∀ (blocks : List SBlock) (m m' : BlockMap),
      removeBlocks clear m blocks = some m' → m'.arr.length = m.arr.length := by
  intro blocks
  induction blocks with
  | nil => intro m m' h; simp [removeBlocks] at h; simp [← h]
  | cons b rest ih =>
    intro m m' h
    simp only [removeBlocks] at h
    cases hd : deletedHash clear b with
    | none => rw [hd] at h; exact absurd h (by simp)
    | some hh =>
      rw [hd] at h
      have := ih _ _ h
      simpa using this

theorem removeBlocks_untouched (clear : Bool) :
    ∀ (blocks : List SBlock) (m m' : BlockMap) (i : Nat),
      removeBlocks clear m blocks = some m' →
      (∀ b ∈ blocks, b.parity_pos ≠ i) →
      m'.arr[i]? = m.arr[i]? := by
  intro blocks
  induction blocks with
  | nil => intro m m' i h _; simp [removeBlocks] at h; simp [← h]
  | cons b rest ih =>
    intro m m' i h hne
    simp only [removeBlocks] at h
    cases hd : deletedHash clear b with
    | none => rw [hd] at h; exact absurd h (by simp)
    | some hh =>
      rw [hd] at h
      have h1 := ih _ _ i h (fun b' hb' => hne b' (by simp [hb']))
      rw [h1]
      exact getElem?_set_other _ _ _ _ (hne b (by simp))

theorem deletedHash_eq_none (clear : Bool) (b : SBlock) :
    deletedHash clear b = none ↔ b.state = BlockState.DELETED := by
  obtain ⟨pp, st, hh⟩ := b
  cases st <;> simp [deletedHash]

theorem removeBlocks_isSome (clear : Bool) :
    ∀ (blocks : List SBlock) (m : BlockMap),
      (removeBlocks clear m blocks).isSome = true ↔
        ∀ b ∈ blocks, b.state ≠ BlockState.DELETED := by
  intro blocks
  induction blocks with
  | nil => intro m; simp [removeBlocks]
  | cons b rest ih =>
    intro m
    simp only [removeBlocks]
    cases hd : deletedHash clear b with
    | none =>
      have hb : b.state = BlockState.DELETED := (deletedHash_eq_none clear b).mp hd
      simp [hb]
    | some hh =>
      have hb : b.state ≠ BlockState.DELETED := by
        intro hs
        rw [(deletedHash_eq_none clear b).mpr hs] at hd
        cases hd
      rw [ih]
      constructor
      · intro h b' hb'
        rcases List.mem_cons.mp hb' with h1 | h1
        · rw [h1]; exact hb
        · exact h b' h1
      · intro h b' hb'
        exact h b' (List.mem_cons_of_mem _ hb')

theorem removeBlocks_ffb (clear : Bool) :
    ∀ (blocks : List SBlock) (m m' : BlockMap),
      removeBlocks clear m blocks = some m' →
      m'.ffb = blocks.foldl (fun a b => min a b.parity_pos) m.ffb := by
  intro blocks
  induction blocks with
  | nil => intro m m' h; simp [removeBlocks] at h; simp [← h]
  | cons b rest ih =>
    intro m m' h
    simp only [removeBlocks] at h
    cases hd : deletedHash clear b with
    | none => rw [hd] at h; exact absurd h (by simp)
    | some hh =>
      rw [hd] at h
      simpa using ih _ _ h

theorem removeBlocks_ffb_le (clear : Bool) :
    ∀ (blocks : List SBlock) (m m' : BlockMap),
      removeBlocks clear m blocks = some m' → m'.ffb ≤ m.ffb := by
  intro blocks
  induction blocks with
  | nil => intro m m' h; simp [removeBlocks] at h; simp [← h]
  | cons b rest ih =>
    intro m m' h
    simp only [removeBlocks] at h
    cases hd : deletedHash clear b with
    | none => rw [hd] at h; exact absurd h (by simp)
    | some hh =>
      rw [hd] at h
      have := ih _ _ h
      simp at this
      omega

theorem removeBlocks_nonempty (clear : Bool) :
    ∀ (blocks : List SBlock) (m m' : BlockMap) (i : Nat),
      removeBlocks clear m blocks = some m' →
      (∀ c, m.arr[i]? = some c → isEmptyCell c = false) →
      (∀ c, m'.arr[i]? = some c → isEmptyCell c = false) := by
  intro blocks
  induction blocks with
  | nil => intro m m' i h hne; simp [removeBlocks] at h; rw [← h]; exact hne
  | cons b rest ih =>
    intro m m' i h hne
    simp only [removeBlocks] at h
    cases hd : deletedHash clear b with
    | none => rw [hd] at h; exact absurd h (by simp)
    | some hh =>
      rw [hd] at h
      refine ih _ _ i h ?_
      intro c hc
      by_cases hip : b.parity_pos = i
      · subst hip
        by_cases hlen : b.parity_pos < m.arr.length
        · rw [getElem?_set_self_of_lt _ _ _ hlen] at hc
          cases hc
          rfl
        · rw [List.getElem?_eq_none (by simp; omega)] at hc
          cases hc
      · rw [getElem?_set_other _ _ _ _ hip] at hc
        exact hne c hc

/-! ## Lemmas about firstEmpty -/

theorem firstEmpty_le_length : ∀ arr : List Cell, firstEmpty arr ≤ arr.length := by
  intro arr
  induction arr with
  | nil => simp [firstEmpty]
  | cons c rest ih =>
    simp only [firstEmpty]
    by_cases h : isEmptyCell c = true
    · simp [h]
    · rw [if_neg h]
      simpa using ih

theorem firstEmpty_spec : ∀ (arr : List Cell) (i : Nat), i < firstEmpty arr →
    ∀ c, arr[i]? = some c → isEmptyCell c = false := by
  intro arr
  induction arr with
  | nil => intro i h; simp [firstEmpty] at h
  | cons a rest ih =>
    intro i h c hc
    simp only [firstEmpty] at h
    by_cases ha : isEmptyCell a = true
    · rw [if_pos ha] at h; omega
    · rw [if_neg ha] at h
      cases i with
      | zero => simp at hc; rw [← hc]; simpa using ha
      | succ j =>
        simp only [List.getElem?_cons_succ] at hc
        exact ih j (by omega) c hc

theorem firstEmpty_ge : ∀ (arr : List Cell) (k : Nat), k ≤ arr.length →
    (∀ i, i < k → ∀ c, arr[i]? = some c → isEmptyCell c = false) →
    k ≤ firstEmpty arr := by
  intro arr
  induction arr with
  | nil => intro k hk _; simp at hk; simp [firstEmpty, hk]
  | cons a rest ih =>
    intro k hk h
    cases k with
    | zero => omega
    | succ k' =>
      have ha : isEmptyCell a = false := h 0 (by omega) a (by simp)
      simp only [firstEmpty]
      rw [if_neg (by simp [ha])]
      have := ih k' (by simpa using hk)
        (fun i hi c hc => h (i + 1) (by omega) c (by simpa using hc))
      omega

/-! ## Lemmas about findFree -/

theorem findFreeGo_ge (arr : List Cell) :
    ∀ (fuel pos : Nat), pos ≤ findFreeGo arr fuel pos := by
  intro fuel
  induction fuel with
  | zero => intro pos; simp [findFreeGo]
  | succ k ih =>
    intro pos
    cases hc : arr[pos]? with
    | none => simp [findFreeGo, hc]
    | some c =>
      simp only [findFreeGo, hc]
      by_cases hf : isFileCell c = true
      · rw [if_pos hf]
        have := ih (pos + 1)
        omega
      · rw [if_neg hf]

theorem findFreeGo_le (arr : List Cell) :
    ∀ (fuel pos : Nat), pos ≤ arr.length → findFreeGo arr fuel pos ≤ arr.length := by
  intro fuel
  induction fuel with
  | zero => intro pos h; simpa [findFreeGo] using h
  | succ k ih =>
    intro pos h
    cases hc : arr[pos]? with
    | none => simpa [findFreeGo, hc] using h
    | some c =>
      simp only [findFreeGo, hc]
      have hlt : pos < arr.length := by
        rcases List.getElem?_eq_some.mp hc with ⟨hl, -⟩
        exact hl
      by_cases hf : isFileCell c = true
      · rw [if_pos hf]
        exact ih (pos + 1) (by omega)
      · rw [if_neg hf]; omega

theorem findFreeGo_not_file (arr : List Cell) :
    ∀ (fuel pos : Nat), arr.length - pos ≤ fuel →
      ∀ c, arr[findFreeGo arr fuel pos]? = some c → isFileCell c = false := by
  intro fuel
  induction fuel with
  | zero =>
    intro pos hfuel c hc
    simp only [findFreeGo] at hc
    rw [List.getElem?_eq_none (by omega)] at hc
    cases hc
  | succ k ih =>
    intro pos hfuel c hc
    cases hc0 : arr[pos]? with
    | none =>
      simp only [findFreeGo, hc0] at hc
      cases hc
    | some c0 =>
      simp only [findFreeGo, hc0] at hc
      have hlt : pos < arr.length := by
        rcases List.getElem?_eq_some.mp hc0 with ⟨hl, -⟩
        exact hl
      by_cases hf : isFileCell c0 = true
      · rw [if_pos hf] at hc
        exact ih (pos + 1) (by omega) c hc
      · rw [if_neg hf] at hc
        rw [hc0] at hc
        cases hc
        simpa using hf

theorem findFreeGo_file_below (arr : List Cell) :
    ∀ (fuel pos : Nat), ∀ i, pos ≤ i → i < findFreeGo arr fuel pos →
      ∀ c, arr[i]? = some c → isFileCell c = true := by
  intro fuel
  induction fuel with
  | zero => intro pos i h1 h2; simp [findFreeGo] at h2; omega
  | succ k ih =>
    intro pos i h1 h2 c hc
    cases hc0 : arr[pos]? with
    | none => simp [findFreeGo, hc0] at h2; omega
    | some c0 =>
      simp only [findFreeGo, hc0] at h2
      by_cases hf : isFileCell c0 = true
      · rw [if_pos hf] at h2
        by_cases hip : i = pos
        · subst hip
          rw [hc0] at hc
          cases hc
          exact hf
        · exact ih (pos + 1) i (by omega) h2 c hc
      · rw [if_neg hf] at h2
        omega

theorem findFree_ge (arr : List Cell) (pos : Nat) : pos ≤ findFree arr pos :=
  findFreeGo_ge arr _ pos

theorem findFree_le (arr : List Cell) (pos : Nat) (hp : pos ≤ arr.length) :
    findFree arr pos ≤ arr.length :=
  findFreeGo_le arr _ pos hp

theorem findFree_not_file (arr : List Cell) (pos : Nat) :
    ∀ c, arr[findFree arr pos]? = some c → isFileCell c = false :=
  findFreeGo_not_file arr _ pos (le_refl _)

theorem findFree_file_below (arr : List Cell) (pos : Nat) :
    ∀ i, pos ≤ i → i < findFree arr pos →
      ∀ c, arr[i]? = some c → isFileCell c = true :=
  findFreeGo_file_below arr _ pos

theorem findFreeGo_skip (arr : List Cell) (fuel pos : Nat) (c : Cell)
    (hc : arr[pos]? = some c) (hf : isFileCell c = true) :
    findFreeGo arr (fuel + 1) pos = findFreeGo arr fuel (pos + 1) := by
  simp [findFreeGo, hc, hf]

theorem findFree_skip (arr : List Cell) (pos : Nat) (h : pos < arr.length)
    (hf : isFileCell (arr.get ⟨pos, h⟩) = true) :
    findFree arr pos = findFree arr (pos + 1) := by
  have hc : arr[pos]? = some (arr.get ⟨pos, h⟩) := by
    rw [List.getElem?_eq_getElem h]
    simp [List.get_eq_getElem]
  have hfuel : arr.length - pos = (arr.length - (pos + 1)) + 1 := by omega
  unfold findFree
  rw [hfuel]
  exact findFreeGo_skip arr _ pos _ hc hf

/-! ## Lemmas about the insert path -/

theorem claimCell_parity (clear : Bool) (p : Nat) (c : Cell) :
    (claimCell clear p c).parity_pos = p := by
  cases c <;> rfl

theorem isEmpty_of_isFile (c : Cell) (h : isFileCell c = true) : isEmptyCell c = false := by
  cases c <;> simp [isFileCell, isEmptyCell] at h ⊢

theorem insertGo_succ_arr (clear : Bool) (arr : List Cell) (pos n : Nat) :
    (insertGo clear arr pos (n + 1)).1 =
      (insertGo clear (stepArr2 clear arr pos) (findFree arr pos) n).1 := rfl

theorem insertGo_succ_pos (clear : Bool) (arr : List Cell) (pos n : Nat) :
    (insertGo clear arr pos (n + 1)).2.1 =
      (insertGo clear (stepArr2 clear arr pos) (findFree arr pos) n).2.1 := rfl

theorem insertGo_succ_bs (clear : Bool) (arr : List Cell) (pos n : Nat) :
    (insertGo clear arr pos (n + 1)).2.2 =
      stepBlock clear arr pos ::
        (insertGo clear (stepArr2 clear arr pos) (findFree arr pos) n).2.2 := rfl

theorem insertGo_len (clear : Bool) :
    ∀ (n : Nat) (arr : List Cell) (pos : Nat),
      (insertGo clear arr pos n).2.2.length = n := by
  intro n
  induction n with
  | zero => intro arr pos; simp [insertGo]
  | succ m ih =>
    intro arr pos
    rw [insertGo_succ_bs]
    simpa using ih _ _

theorem insertGo_last (clear : Bool) :
    ∀ (n : Nat) (arr : List Cell) (pos : Nat), 1 ≤ n →
      ∃ last, ((insertGo clear arr pos n).2.2).getLast? = some last ∧
        (insertGo clear arr pos n).2.1 = last.parity_pos := by
  intro n
  induction n with
  | zero => intro arr pos h; omega
  | succ m ih =>
    intro arr pos _
    cases m with
    | zero =>
      refine ⟨stepBlock clear arr pos, ?_, ?_⟩
      · rw [insertGo_succ_bs]
        simp [insertGo]
      · rw [insertGo_succ_pos]
        simp [insertGo, stepBlock, claimCell_parity]
    | succ m' =>
      obtain ⟨last, h1, h2⟩ := ih (stepArr2 clear arr pos) (findFree arr pos) (by omega)
      refine ⟨last, ?_, ?_⟩
      · rw [insertGo_succ_bs]
        cases hbs : (insertGo clear (stepArr2 clear arr pos) (findFree arr pos) (m' + 1)).2.2 with
        | nil =>
          have := insertGo_len clear (m' + 1) (stepArr2 clear arr pos) (findFree arr pos)
          rw [hbs] at this
          simp at this
        | cons y ys =>
          rw [hbs] at h1
          rw [List.getLast?_cons_cons]
          exact h1
      · rw [insertGo_succ_pos]
        exact h2

theorem insertGo_skip (clear : Bool) (arr : List Cell) (pos n : Nat)
    (c : Cell) (hc : arr[pos]? = some c) (hf : isFileCell c = true) :
    insertGo clear arr pos (n + 1) = insertGo clear arr (pos + 1) (n + 1) := by
  have hlt : pos < arr.length := by
    by_contra h
    rw [List.getElem?_eq_none (by omega)] at hc
    cases hc
  have hg : isFileCell (arr.get ⟨pos, hlt⟩) = true := by
    rw [List.getElem?_eq_getElem hlt] at hc
    cases hc
    simpa [List.get_eq_getElem] using hf
  have hff : findFree arr pos = findFree arr (pos + 1) := findFree_skip arr pos hlt hg
  have h1 : stepBlock clear arr pos = stepBlock clear arr (pos + 1) := by
    unfold stepBlock
    rw [hff]
  have h2 : stepArr2 clear arr pos = stepArr2 clear arr (pos + 1) := by
    unfold stepArr2
    rw [hff, h1]
  simp only [insertGo]
  rw [h1, h2, hff]

theorem insertGo_chain (clear : Bool) :
    ∀ (n : Nat) (arr : List Cell) (pos : Nat), pos ≤ arr.length →
      List.Chain' (fun a b => a.parity_pos < b.parity_pos) (insertGo clear arr pos n).2.2 ∧
      ∀ b ∈ (insertGo clear arr pos n).2.2, pos ≤ b.parity_pos := by
  intro n
  induction n with
  | zero => intro arr pos _; simp [insertGo]
  | succ m ih =>
    intro arr pos hpos
    have hP1 : pos ≤ findFree arr pos := findFree_ge arr pos
    have hP2 : findFree arr pos ≤ arr.length := findFree_le arr pos hpos
    have hlen1 : findFree arr pos < (stepArr1 arr (findFree arr pos)).length := by
      unfold stepArr1
      by_cases h : findFree arr pos = arr.length
      · rw [if_pos h]; simp; omega
      · rw [if_neg h]; omega
    have hlen2 : (stepArr2 clear arr pos).length = (stepArr1 arr (findFree arr pos)).length := by
      unfold stepArr2
      simp
    have hcell : (stepArr2 clear arr pos)[findFree arr pos]? =
        some (Cell.file (stepBlock clear arr pos)) := by
      unfold stepArr2
      exact getElem?_set_self_of_lt _ _ _ hlen1
    have hparity : (stepBlock clear arr pos).parity_pos = findFree arr pos := by
      unfold stepBlock
      exact claimCell_parity _ _ _
    rw [insertGo_succ_bs]
    cases m with
    | zero =>
      constructor
      · simp [insertGo]
      · intro b hb
        simp [insertGo] at hb
        rw [hb, hparity]
        omega
    | succ m' =>
      have hskip : insertGo clear (stepArr2 clear arr pos) (findFree arr pos) (m' + 1) =
          insertGo clear (stepArr2 clear arr pos) (findFree arr pos + 1) (m' + 1) :=
        insertGo_skip clear _ _ m' _ hcell rfl
      rw [hskip]
      obtain ⟨ihc, ihb⟩ := ih (stepArr2 clear arr pos) (findFree arr pos + 1) (by omega)
      constructor
      · rw [List.chain'_cons']
        refine ⟨?_, ihc⟩
        intro y hy
        have hmem := List.mem_of_mem_head? hy
        have := ihb y hmem
        rw [hparity]
        omega
      · intro b hb
        rcases List.mem_cons.mp hb with h | h
        · rw [h, hparity]; omega
        · have := ihb b h; omega

theorem stepArr2_below (clear : Bool) (arr : List Cell) (pos : Nat)
    (hpos : pos ≤ arr.length)
    (hbelow : ∀ i, i < pos → ∀ c, arr[i]? = some c → isEmptyCell c = false) :
    ∀ i, i < findFree arr pos → ∀ c, (stepArr2 clear arr pos)[i]? = some c →
      isEmptyCell c = false := by
  intro i hi c hc
  have hP2 := findFree_le arr pos hpos
  have hia : i < arr.length := by omega
  unfold stepArr2 at hc
  rw [getElem?_set_other _ _ _ _ (by omega)] at hc
  unfold stepArr1 at hc
  have hc' : arr[i]? = some c := by
    by_cases h : findFree arr pos = arr.length
    · rw [if_pos h] at hc
      rwa [getElem?_append_l _ _ _ hia] at hc
    · rwa [if_neg h] at hc
  by_cases hip : i < pos
  · exact hbelow i hip c hc'
  · have := findFree_file_below arr pos i (by omega) hi c hc'
    exact isEmpty_of_isFile c this

theorem insertGo_fill (clear : Bool) :
    ∀ (n : Nat) (arr : List Cell) (pos : Nat), 1 ≤ n → pos ≤ arr.length →
      (∀ i, i < pos → ∀ c, arr[i]? = some c → isEmptyCell c = false) →
      (∀ i, i < (insertGo clear arr pos n).2.1 + 1 →
        ∀ c, (insertGo clear arr pos n).1[i]? = some c → isEmptyCell c = false) ∧
      (insertGo clear arr pos n).2.1 + 1 ≤ (insertGo clear arr pos n).1.length := by
  intro n
  induction n with
  | zero => intro arr pos h; omega
  | succ m ih =>
    intro arr pos _ hpos hbelow
    have hP1 : pos ≤ findFree arr pos := findFree_ge arr pos
    have hP2 : findFree arr pos ≤ arr.length := findFree_le arr pos hpos
    have hlen1 : findFree arr pos < (stepArr1 arr (findFree arr pos)).length := by
      unfold stepArr1
      by_cases h : findFree arr pos = arr.length
      · rw [if_pos h]; simp; omega
      · rw [if_neg h]; omega
    have hlen2 : (stepArr2 clear arr pos).length = (stepArr1 arr (findFree arr pos)).length := by
      unfold stepArr2
      simp
    have hcell : (stepArr2 clear arr pos)[findFree arr pos]? =
        some (Cell.file (stepBlock clear arr pos)) := by
      unfold stepArr2
      exact getElem?_set_self_of_lt _ _ _ hlen1
    have hbelow2 := stepArr2_below clear arr pos hpos hbelow
    cases m with
    | zero =>
      rw [insertGo_succ_pos, insertGo_succ_arr]
      constructor
      · intro i hi c hc
        simp only [insertGo] at hi hc
        by_cases hip : i = findFree arr pos
        · subst hip
          rw [hcell] at hc
          cases hc
          rfl
        · exact hbelow2 i (by omega) c hc
      · simp only [insertGo]
        omega
    | succ m' =>
      rw [insertGo_succ_pos, insertGo_succ_arr]
      exact ih (stepArr2 clear arr pos) (findFree arr pos) (by omega) (by omega) hbelow2

theorem deletedHash_eq_some (clear : Bool) (b : SBlock) (h : Hash)
    (hd : deletedHash clear b = some h) :
    h = (if b.state = BlockState.BLK then b.hash else if clear then b.hash else zeroHash) := by
  obtain ⟨pp, st, hsh⟩ := b
  cases st <;> simp_all [deletedHash]

theorem removeBlocks_cells (clear : Bool) :
    ∀ (blocks : List SBlock) (m m' : BlockMap),
      removeBlocks clear m blocks = some m' →
      (blocks.map (fun b => b.parity_pos)).Nodup →
      (∀ b ∈ blocks, b.parity_pos < m.arr.length) →
      ∀ b ∈ blocks, m'.arr[b.parity_pos]? =
        some (Cell.deleted (if b.state = BlockState.BLK then b.hash
          else if clear then b.hash else zeroHash)) := by
  intro blocks
  induction blocks with
  | nil => intro m m' _ _ _ b hb; simp at hb
  | cons b0 rest ih =>
    intro m m' h hnd hlt b hb
    simp only [removeBlocks] at h
    cases hd : deletedHash clear b0 with
    | none => rw [hd] at h; exact absurd h (by simp)
    | some hh =>
      rw [hd] at h
      rw [List.map_cons, List.nodup_cons] at hnd
      obtain ⟨hnotin, hndr⟩ := hnd
      rcases List.mem_cons.mp hb with rfl | hmem
      · have hun := removeBlocks_untouched clear rest _ m' b.parity_pos h ?_
        · rw [hun]
          rw [getElem?_set_self_of_lt _ _ _ (hlt b (by simp))]
          rw [deletedHash_eq_some clear b hh hd]
        · intro b' hb' heq
          exact hnotin (heq ▸ List.mem_map_of_mem _ hb')
      · refine ih _ m' h hndr ?_ b hmem
        intro b' hb'
        have := hlt b' (List.mem_cons_of_mem _ hb')
        simpa using this

/-! ## Claim theorems about the block allocator -/

/-- C2 (confirmed): the block-allocator delete path replaces, at every
block's parity slot, the file-block reference by a Deleted-block cell; a
`BLK` block's hash is retained byte-for-byte, a `CHG`/`NEW` block's hash
is zeroed unless `clear_undeterminate_hash` is set, and any other block
state is a fatal error (modelled as `none`).  The hypotheses state the
standing catalog invariants that parity positions are distinct (P2) and
within the block map (I2). -/
theorem scan_C2 (clear : Bool) (m : BlockMap) (blocks : List SBlock)
    (hnd : (blocks.map (fun b => b.parity_pos)).Nodup)
    (hlt : ∀ b ∈ blocks, b.parity_pos < m.arr.length) :
    ((removeBlocks clear m blocks).isSome = true ↔
      ∀ b ∈ blocks, b.state ≠ BlockState.DELETED) ∧
    (∀ m', removeBlocks clear m blocks = some m' →
      ∀ b ∈ blocks, m'.arr[b.parity_pos]? =
        some (Cell.deleted (if b.state = BlockState.BLK then b.hash
          else if clear then b.hash else zeroHash))) := by
  constructor
  · exact removeBlocks_isSome clear blocks m
  · intro m' hm'
    exact removeBlocks_cells clear blocks m m' hm' hnd hlt

/-- Concrete instance of `scan_C2`: removing a two-block file with
states `BLK`,`CHG` under `clear_undeterminate_hash = false` leaves a
Deleted cell with the retained hash at slot 0 and a zeroed one at
slot 1. -/
theorem scan_C2_witness :
    (([⟨0, BlockState.BLK, [1]⟩, ⟨1, BlockState.CHG, [2]⟩] :
        List SBlock).map (fun b => b.parity_pos)).Nodup ∧
    (removeBlocks false ⟨[Cell.file ⟨0, BlockState.BLK, [1]⟩, Cell.file ⟨1, BlockState.CHG, [2]⟩], 2⟩
      [⟨0, BlockState.BLK, [1]⟩, ⟨1, BlockState.CHG, [2]⟩]).isSome = true ∧
    (⟨[Cell.deleted [1], Cell.deleted zeroHash], 0⟩ : BlockMap).arr[(1 : Nat)]? =
      some (Cell.deleted zeroHash) := by
  have h := scan_C2 false
    ⟨[Cell.file ⟨0, BlockState.BLK, [1]⟩, Cell.file ⟨1, BlockState.CHG, [2]⟩], 2⟩
    [⟨0, BlockState.BLK, [1]⟩, ⟨1, BlockState.CHG, [2]⟩] (by decide) (by decide)
  refine ⟨by decide, h.1.mpr (by decide), ?_⟩
  have h2 := h.2 ⟨[Cell.deleted [1], Cell.deleted zeroHash], 0⟩ (by decide)
    ⟨1, BlockState.CHG, [2]⟩ (by decide)
  simpa using h2

/-- C7 (confirmed): the cursor `first_free_block` is lowered to the
minimum with each deleted block's parity position by the delete path, is
advanced to the last claimed slot plus one by an insertion that
allocated at least one block, and both paths preserve invariant I3
(`first_free_block` is at most the index of the first Empty cell). -/
theorem scan_C7 :
    (∀ (clear : Bool) (m : BlockMap) (blocks : List SBlock) (m' : BlockMap),
        removeBlocks clear m blocks = some m' →
        m'.ffb = blocks.foldl (fun a b => min a b.parity_pos) m.ffb) ∧
    (∀ (clear : Bool) (m : BlockMap) (n : Nat), 1 ≤ n →
        ∃ last, ((insertBlocks clear m n).2).getLast? = some last ∧
          (insertBlocks clear m n).1.ffb = last.parity_pos + 1) ∧
    (∀ (clear : Bool) (m : BlockMap) (blocks : List SBlock) (m' : BlockMap),
        removeBlocks clear m blocks = some m' →
        m.ffb ≤ firstEmpty m.arr → m'.ffb ≤ firstEmpty m'.arr) ∧
    (∀ (clear : Bool) (m : BlockMap) (n : Nat),
        m.ffb ≤ firstEmpty m.arr →
        (insertBlocks clear m n).1.ffb ≤ firstEmpty (insertBlocks clear m n).1.arr) := by
  refine ⟨?_, ?_, ?_, ?_⟩
  · intro clear m blocks m' h
    exact removeBlocks_ffb clear blocks m m' h
  · intro clear m n hn
    obtain ⟨last, h1, h2⟩ := insertGo_last clear n m.arr m.ffb hn
    refine ⟨last, ?_, ?_⟩
    · simpa [insertBlocks] using h1
    · simp only [insertBlocks]
      rw [if_neg (by omega)]
      omega
  · intro clear m blocks m' h hI3
    have hle := removeBlocks_ffb_le clear blocks m m' h
    have hlen := removeBlocks_length clear blocks m m' h
    have hge : firstEmpty m.arr ≤ firstEmpty m'.arr := by
      apply firstEmpty_ge
      · rw [hlen]
        exact firstEmpty_le_length m.arr
      · intro i hi c hc
        exact removeBlocks_nonempty clear blocks m m' i h
          (fun c' hc' => firstEmpty_spec m.arr i hi c' hc') c hc
    omega
  · intro clear m n hI3
    cases n with
    | zero =>
      simpa [insertBlocks, insertGo] using hI3
    | succ k =>
      have hlen : m.ffb ≤ m.arr.length := le_trans hI3 (firstEmpty_le_length m.arr)
      obtain ⟨hfill, hlen'⟩ := insertGo_fill clear (k + 1) m.arr m.ffb (by omega) hlen
        (fun i hi c hc => firstEmpty_spec m.arr i (by omega) c hc)
      have hge := firstEmpty_ge (insertGo clear m.arr m.ffb (k + 1)).1
        ((insertGo clear m.arr m.ffb (k + 1)).2.1 + 1) hlen' hfill
      simp only [insertBlocks]
      rw [if_neg (by omega)]
      exact hge

/-- Concrete instance of `scan_C7`: deleting the single block at slot 0
from a one-cell map with cursor 1 lowers the cursor to 0, and a
one-block insertion into an empty map keeps I3. -/
theorem scan_C7_witness :
    (removeBlocks false ⟨[Cell.file ⟨0, BlockState.BLK, []⟩], 1⟩ [⟨0, BlockState.BLK, []⟩] =
      some ⟨[Cell.deleted []], 0⟩) ∧
    (⟨[Cell.deleted []], 0⟩ : BlockMap).ffb =
      ([⟨0, BlockState.BLK, []⟩] : List SBlock).foldl (fun a b => min a b.parity_pos) 1 ∧
    (insertBlocks false (⟨[], 0⟩ : BlockMap) 1).1.ffb ≤
      firstEmpty (insertBlocks false (⟨[], 0⟩ : BlockMap) 1).1.arr := by
  refine ⟨by decide, ?_, ?_⟩
  · exact scan_C7.1 false ⟨[Cell.file ⟨0, BlockState.BLK, []⟩], 1⟩ _ _ (by decide)
  · exact scan_C7.2.2.2 false ⟨[], 0⟩ 1 (by decide)

/-- C8 (confirmed): a zero-length file has `ceil(0 / block_size) = 0`
blocks and its insertion leaves the block map and the cursor unchanged:
no slot is claimed, the map is not grown, the cursor is not advanced. -/
theorem scan_C8 (clear : Bool) (m : BlockMap) (bsz : Nat) (h : 0 < bsz) :
    blockmaxOf bsz 0 = 0 ∧ insertBlocks clear m (blockmaxOf bsz 0) = (m, []) := by
  have h0 : blockmaxOf bsz 0 = 0 := by
    unfold blockmaxOf
    apply Nat.div_eq_of_lt
    omega
  refine ⟨h0, ?_⟩
  rw [h0]
  obtain ⟨arr, ffb⟩ := m
  simp [insertBlocks, insertGo]

/-- Concrete instance of `scan_C8` at the default 256 KiB block size. -/
theorem scan_C8_witness :
    0 < 262144 ∧
      insertBlocks false (⟨[Cell.deleted []], 1⟩ : BlockMap) (blockmaxOf 262144 0) =
        ((⟨[Cell.deleted []], 1⟩ : BlockMap), ([] : List SBlock)) :=
  ⟨by omega, (scan_C8 false ⟨[Cell.deleted []], 1⟩ 262144 (by omega)).2⟩

/-- C10 (confirmed): the parity positions assigned by the insert path
are strictly increasing with the block index, because the allocation
walk only moves the cursor forward and never reclaims a slot occupied by
a file-block reference.  The hypothesis is invariant I3's consequence
that the cursor does not exceed the map length. -/
theorem scan_C10 (clear : Bool) (m : BlockMap) (n : Nat) (h : m.ffb ≤ m.arr.length) :
    List.Chain' (fun a b => a.parity_pos < b.parity_pos) ((insertBlocks clear m n).2) := by
  have hc := (insertGo_chain clear n m.arr m.ffb h).1
  simpa [insertBlocks] using hc

/-- Concrete instance of `scan_C10`: three blocks inserted over a map
with an occupied middle slot get strictly increasing parity slots. -/
theorem scan_C10_witness :
    (⟨[Cell.deleted [], Cell.file ⟨1, BlockState.BLK, []⟩], 0⟩ : BlockMap).ffb ≤
      (⟨[Cell.deleted [], Cell.file ⟨1, BlockState.BLK, []⟩], 0⟩ : BlockMap).arr.length ∧
    List.Chain' (fun a b => a.parity_pos < b.parity_pos)
      ((insertBlocks false ⟨[Cell.deleted [], Cell.file ⟨1, BlockState.BLK, []⟩], 0⟩ 3).2) :=
  ⟨by decide, scan_C10 false ⟨[Cell.deleted [], Cell.file ⟨1, BlockState.BLK, []⟩], 0⟩ 3 (by decide)⟩

/-! ## The reconciler data model -/

/-- The sentinel for a catalog that predates sub-second timestamps. -/
def STAT_NSEC_INVALID : Int := -1

/-- The fields of `struct stat` used by `scan_file`. -/
structure Stat where
  st_ino : Nat
  st_size : Nat
  st_mtime : Nat
  st_nsec : Int
  st_nlink : Nat
deriving DecidableEq, Repr, Inhabited

/-- One catalog file (`struct snapraid_file`), with the transient
`FILE_IS_PRESENT` and `FILE_IS_WITHOUT_INODE` flags inlined as booleans.
The `physical` offset is omitted: it feeds only the duplicate-offset
warning, which none of the claims mention. -/
structure SFile where
  sub : String
  size : Nat
  mtime_sec : Nat
  mtime_nsec : Int
  inode : Nat
  present : Bool
  without_inode : Bool
  blocks : List SBlock
deriving DecidableEq, Repr, Inhabited

/-- Link kinds (`FILE_IS_SYMLINK` / `FILE_IS_HARDLINK`). -/
inductive LinkKind
  | symlink
  | hardlink
deriving DecidableEq, Repr, Inhabited

/-- One catalog link (`struct snapraid_link`). -/
structure SLink where
  sub : String
  linkto : String
  kind : LinkKind
  present : Bool
deriving DecidableEq, Repr, Inhabited

/-- One disk's catalog (`struct snapraid_disk`): files, links, the
parity block array with its cursor, and the non-persistent-inode flag.
Empty directories are omitted: their reconciliation mirrors links minus
the payload and no claim mentions them.  The dual hash indexes
(`inodeset`, `pathset`) become searches over the single file list. -/
structure Disk where
  files : List SFile
  links : List SLink
  blockarr : List Cell
  first_free_block : Nat
  has_not_persistent_inodes : Bool
deriving DecidableEq, Repr, Inhabited

/-- The per-disk change counters of `struct snapraid_scan`. -/
structure Counters where
  equal : Nat
  move : Nat
  restore : Nat
  change : Nat
  remove : Nat
  insert : Nat
deriving DecidableEq, Repr, Inhabited

/-- All counters zero, as initialized by `state_scan`. -/
def counters0 : Counters := ⟨0, 0, 0, 0, 0, 0⟩

/-- The policy flags consulted by the scan. -/
structure Policy where
  force_zero : Bool
  clear_undeterminate_hash : Bool
deriving DecidableEq, Repr, Inhabited

/-- The fatal `exit(EXIT_FAILURE)` conditions of the scan. -/
inductive Fatal
  | inodePresent
  | inodeMismatchPresent
  | pathUnexpectedInode
  | pathPresent
  | linkPresent
  | zeroSize
  | badBlockState
deriving DecidableEq, Repr, Inhabited

/-- The outcome of one reconciler call: the updated disk, counters, the
`need_write` bit, and the deferred-insert queue contributions (at most
one file sub and one link per call). -/
structure ScanRes where
  disk : Disk
  cnt : Counters
  needw : Bool
  qfile : Option String
  qlink : Option SLink
deriving DecidableEq, Repr, Inhabited

/-- First index satisfying a predicate (the hash-table searches of the C
code become linear searches; which match is returned is irrelevant for
the claims because the relevant keys are unique). -/
def findIdxO {α : Type} (p : α → Bool) : List α → Option Nat
  | [] => none
  | a :: l => if p a then some 0 else (findIdxO p l).map (fun i => i + 1)

/-- Search of `disk->inodeset`: files flagged `FILE_IS_WITHOUT_INODE`
are not in the inode index. -/
def findInode (files : List SFile) (ino : Nat) : Option Nat :=
  findIdxO (fun f => !f.without_inode && f.inode == ino) files

/-- Search of `disk->pathset`. -/
def findPath (files : List SFile) (sub : String) : Option Nat :=
  findIdxO (fun f => f.sub == sub) files

/-- Search of `disk->linkset`. -/
def findLink (links : List SLink) (sub : String) : Option Nat :=
  findIdxO (fun l => l.sub == sub) links

/-- The metadata comparison of `scan_file` (src/scan.c lines 329-336 and
461-468): equal size, equal mtime seconds, and equal nanoseconds or a
stored `STAT_NSEC_INVALID` sentinel. -/
def metadataMatch (f : SFile) (st : Stat) : Bool :=
  f.size == st.st_size && f.mtime_sec == st.st_mtime &&
    (f.mtime_nsec == st.st_nsec || f.mtime_nsec == STAT_NSEC_INVALID)

/-- The nanosecond upgrade (src/scan.c lines 355-362 and 475-482):
returns the possibly upgraded file and whether `need_write` was set. -/
def nsecUpgrade (f : SFile) (st : Stat) : SFile × Bool :=
  if f.mtime_nsec == STAT_NSEC_INVALID && st.st_nsec != STAT_NSEC_INVALID then
    ({ f with mtime_nsec := st.st_nsec }, true)
  else (f, false)

/-- `scan_link` (src/scan.c lines 75-147): an existing link must not be
present already; matching target and kind count equal, otherwise the
link is updated and counts as a change; a new link is queued on
`link_insert_list` already marked present. -/
def scan_link (d : Disk) (cnt : Counters) (needw : Bool)
    (sub linkto : String) (kind : LinkKind) : Except Fatal ScanRes :=
  match findLink d.links sub with
  | some j =>
    let l0 := (d.links[j]?).getD default
    if l0.present then .error .linkPresent
    else
      let l1 := { l0 with present := true }
      if l1.linkto == linkto && l1.kind == kind then
        .ok ⟨{ d with links := d.links.set j l1 }, { cnt with equal := cnt.equal + 1 },
          needw, none, none⟩
      else
        .ok ⟨{ d with links := d.links.set j { l1 with linkto := linkto, kind := kind } },
          { cnt with change := cnt.change + 1 }, true, none, none⟩
  | none =>
    .ok ⟨d, { cnt with insert := cnt.insert + 1 }, needw, none,
      some ⟨sub, linkto, kind, true⟩⟩

/-- The `File` allocated by the insert tail of `scan_file`
(`file_alloc`): metadata from the stat, marked present, no blocks yet
(they are allocated in the deferred insert phase). -/
def newFileOf (sub : String) (st : Stat) : SFile :=
  ⟨sub, st.st_size, st.st_mtime, st.st_nsec, st.st_ino, true, false, []⟩

/-- The insert tail of `scan_file` (src/scan.c lines 575-587): allocate
the file, mark present, enter it in both indexes at once (modelled by
appending to the file list) and queue it on `file_insert_list`. -/
def scan_file_new (d : Disk) (cnt : Counters) (needw : Bool)
    (sub : String) (st : Stat) : ScanRes :=
  ⟨{ d with files := d.files ++ [newFileOf sub st] }, cnt, needw, some sub, none⟩

/-- The tail of the path branch of `scan_file` after the without-inode
handling (src/scan.c lines 454-587): presence check, metadata check,
restore-versus-equal classification, and the change path with the
zero-size guard, the delete of the old file and the fall-through to
insertion.  `f` is the found file after the optional inode restoration;
`j` is its index. -/
def scan_file_path2 (pol : Policy) (d : Disk) (cnt : Counters) (needw : Bool)
    (sub : String) (st : Stat) (j : Nat) (f : SFile) : Except Fatal ScanRes :=
  if f.present then .error .pathPresent
  else if metadataMatch f st then
    let u := nsecUpgrade f st
    let f1 := { u.1 with present := true }
    if !d.has_not_persistent_inodes then
      .ok ⟨{ d with files := d.files.set j { f1 with inode := st.st_ino } },
        { cnt with restore := cnt.restore + 1 }, true, none, none⟩
    else
      .ok ⟨{ d with files := d.files.set j f1 },
        { cnt with equal := cnt.equal + 1 }, needw || u.2, none, none⟩
  else
    if f.size != 0 && st.st_size == 0 && !pol.force_zero then .error .zeroSize
    else
      match removeBlocks pol.clear_undeterminate_hash
          ⟨d.blockarr, d.first_free_block⟩ f.blocks with
      | none => .error .badBlockState
      | some m =>
        .ok (scan_file_new
          { d with files := d.files.eraseIdx j, blockarr := m.arr, first_free_block := m.ffb }
          { cnt with change := cnt.change + 1 } true sub st)

/-- The path-lookup stage of `scan_file` (src/scan.c lines 432-587): a
file found by name has its inode restored if it was flagged
without-inode, an unexpected equal inode is fatal, and otherwise the
classification continues; an unknown name counts an insert and falls
through to the insert tail. -/
def scan_file_path (pol : Policy) (d : Disk) (cnt : Counters) (needw : Bool)
    (sub : String) (st : Stat) : Except Fatal ScanRes :=
  match findPath d.files sub with
  | some j =>
    let f0 := (d.files[j]?).getD default
    if f0.without_inode then
      scan_file_path2 pol d cnt needw sub st j
        { f0 with inode := st.st_ino, without_inode := false }
    else if f0.inode == st.st_ino then
      .error .pathUnexpectedInode
    else
      scan_file_path2 pol d cnt needw sub st j f0
  | none =>
    .ok (scan_file_new d { cnt with insert := cnt.insert + 1 } needw sub st)

/-- `scan_file` (src/scan.c lines 294-587): inode lookup first; on a
metadata match an already-present file dispatches to `scan_link` as a
hardlink when `st_nlink > 1` and is fatal otherwise, and a
not-yet-present file is classified as a move or as equal; on a metadata
mismatch the stale inode is dropped from the index and the path lookup
takes over. -/
def scan_file (pol : Policy) (d : Disk) (cnt : Counters) (needw : Bool)
    (sub : String) (st : Stat) : Except Fatal ScanRes :=
  match findInode d.files st.st_ino with
  | some i =>
    let f0 := (d.files[i]?).getD default
    if metadataMatch f0 st then
      if f0.present then
        if 1 < st.st_nlink then
          scan_link d cnt needw sub f0.sub LinkKind.hardlink
        else .error .inodePresent
      else
        let u := nsecUpgrade f0 st
        let f1 := { u.1 with present := true }
        if f1.sub != sub then
          .ok ⟨{ d with files := d.files.set i { f1 with sub := sub } },
            { cnt with move := cnt.move + 1 }, true, none, none⟩
        else
          .ok ⟨{ d with files := d.files.set i f1 },
            { cnt with equal := cnt.equal + 1 }, needw || u.2, none, none⟩
    else
      if f0.present then .error .inodeMismatchPresent
      else
        scan_file_path pol
          { d with files := d.files.set i { f0 with inode := 0, without_inode := true } }
          cnt needw sub st
  | none => scan_file_path pol d cnt needw sub st

/-! ## Lemmas about findIdxO -/

theorem findIdxO_some {α : Type} (p : α → Bool) :
    ∀ (l : List α) (j : Nat), findIdxO p l = some j →
      ∃ a, l[j]? = some a ∧ p a = true := by
  intro l
  induction l with
  | nil => intro j h; simp [findIdxO] at h
  | cons a t ih =>
    intro j h
    simp only [findIdxO] at h
    by_cases hp : p a = true
    · rw [if_pos hp] at h
      cases h
      exact ⟨a, by simp, hp⟩
    · rw [if_neg hp] at h
      cases hj : findIdxO p t with
      | none => rw [hj] at h; cases h
      | some k =>
        rw [hj] at h
        simp at h
        obtain ⟨b, hb, hpb⟩ := ih k hj
        exact ⟨b, by rw [← h]; simpa using hb, hpb⟩

theorem findIdxO_none {α : Type} (p : α → Bool) :
    ∀ l : List α, (∀ a ∈ l, p a = false) → findIdxO p l = none := by
  intro l
  induction l with
  | nil => intro _; rfl
  | cons a t ih =>
    intro h
    simp only [findIdxO]
    rw [if_neg (by simp [h a (by simp)])]
    rw [ih (fun b hb => h b (by simp [hb]))]
    rfl

theorem findIdxO_min {α : Type} (p : α → Bool) :
    ∀ (l : List α) (j : Nat), findIdxO p l = some j →
      ∀ i, i < j → ∀ a, l[i]? = some a → p a = false := by
  intro l
  induction l with
  | nil => intro j h; simp [findIdxO] at h
  | cons a t ih =>
    intro j h i hi b hb
    simp only [findIdxO] at h
    by_cases hp : p a = true
    · rw [if_pos hp] at h; cases h; omega
    · rw [if_neg hp] at h
      cases hj : findIdxO p t with
      | none => rw [hj] at h; cases h
      | some k =>
        rw [hj] at h
        simp at h
        cases i with
        | zero =>
          simp at hb
          rw [← hb]
          simpa using hp
        | succ i' =>
          simp only [List.getElem?_cons_succ] at hb
          exact ih k hj i' (by omega) b hb

theorem findIdxO_mem {α : Type} (p : α → Bool) :
    ∀ (l : List α) (k : Nat) (a : α), l[k]? = some a → p a = true →
      ∃ j, findIdxO p l = some j ∧ j ≤ k := by
  intro l
  induction l with
  | nil => intro k a h; simp at h
  | cons x t ih =>
    intro k a h hp
    simp only [findIdxO]
    by_cases hx : p x = true
    · exact ⟨0, by rw [if_pos hx], by omega⟩
    · rw [if_neg hx]
      cases k with
      | zero =>
        simp at h
        rw [h] at hx
        exact absurd hp hx
      | succ k' =>
        simp only [List.getElem?_cons_succ] at h
        obtain ⟨j, hj, hjk⟩ := ih k' a h hp
        exact ⟨j + 1, by rw [hj]; rfl, by omega⟩

theorem findIdxO_unique {α : Type} (p : α → Bool) (l : List α) (k : Nat) (a : α)
    (hk : l[k]? = some a) (hp : p a = true)
    (huniq : ∀ i b, l[i]? = some b → p b = true → i = k) :
    findIdxO p l = some k := by
  obtain ⟨j, hj, _⟩ := findIdxO_mem p l k a hk hp
  obtain ⟨b, hb, hpb⟩ := findIdxO_some p l j hj
  rw [huniq j b hb hpb] at hj
  exact hj

/-! ## Claim theorems about the reconciler -/

/-- C3 (confirmed): when the inode lookup finds a catalog file whose
metadata matches the stat and that file is already present, then with
`st_nlink > 1` the entry is dispatched to link reconciliation as a
hardlink whose target is the existing file's path — the result is
exactly that of `scan_link` on the unchanged disk and counters, so the
file path of the reconciler touches nothing — and with `st_nlink ≤ 1`
the scan aborts with the internal-inconsistency fatal error. -/
theorem scan_C3 (pol : Policy) (d : Disk) (cnt : Counters) (needw : Bool)
    (sub : String) (st : Stat) (i : Nat) (f : SFile)
    (hfi : findInode d.files st.st_ino = some i)
    (hget : d.files[i]? = some f)
    (hmeta : metadataMatch f st = true)
    (hpres : f.present = true) :
    (1 < st.st_nlink →
      scan_file pol d cnt needw sub st = scan_link d cnt needw sub f.sub LinkKind.hardlink) ∧
    (¬ 1 < st.st_nlink →
      scan_file pol d cnt needw sub st = .error Fatal.inodePresent) := by
  constructor <;> intro hn <;>
    simp [scan_file, hfi, hget, hmeta, hpres, hn]

/-- Concrete instance of `scan_C3`: two paths sharing inode 10 with
`st_nlink = 2`; scanning the second path dispatches to the hardlink
handling with the first path as target. -/
theorem scan_C3_witness :
    findInode (⟨[⟨"a", 100, 1000, 0, 10, true, false, []⟩], [], [], 0, false⟩ : Disk).files 10 =
        some 0 ∧
    scan_file ⟨false, false⟩ ⟨[⟨"a", 100, 1000, 0, 10, true, false, []⟩], [], [], 0, false⟩
        counters0 false "b" ⟨10, 100, 1000, 0, 2⟩ =
      scan_link ⟨[⟨"a", 100, 1000, 0, 10, true, false, []⟩], [], [], 0, false⟩
        counters0 false "b" "a" LinkKind.hardlink := by
  refine ⟨by decide, ?_⟩
  exact (scan_C3 ⟨false, false⟩ ⟨[⟨"a", 100, 1000, 0, 10, true, false, []⟩], [], [], 0, false⟩
    counters0 false "b" ⟨10, 100, 1000, 0, 2⟩ 0 ⟨"a", 100, 1000, 0, 10, true, false, []⟩
    (by decide) (by decide) (by decide) (by decide)).1 (by decide)

/-- C4 (confirmed): in the change case of the path branch (file found by
path, metadata differs), a stored non-zero size observed as zero without
`force_zero` is fatal before any mutation; otherwise the old file is
deleted through the block-allocator delete path, the change counter is
incremented exactly once, and the new file is queued for insertion.  The
hypotheses pin the branch: no inode match, found by path, not
without-inode (with a different inode, as the code itself enforces), not
yet present, metadata mismatch; the delete path is assumed to succeed
(catalog invariant: no `DELETED` block belongs to a file). -/
theorem scan_C4 (pol : Policy) (d : Disk) (cnt : Counters) (needw : Bool)
    (sub : String) (st : Stat) (j : Nat) (f : SFile)
    (hno : findInode d.files st.st_ino = none)
    (hfp : findPath d.files sub = some j)
    (hget : d.files[j]? = some f)
    (hwo : f.without_inode = false)
    (hne : f.inode ≠ st.st_ino)
    (hpres : f.present = false)
    (hmeta : metadataMatch f st = false) :
    (f.size ≠ 0 → st.st_size = 0 → pol.force_zero = false →
      scan_file pol d cnt needw sub st = .error Fatal.zeroSize) ∧
    (∀ m', ¬(f.size ≠ 0 ∧ st.st_size = 0 ∧ pol.force_zero = false) →
      removeBlocks pol.clear_undeterminate_hash
          ⟨d.blockarr, d.first_free_block⟩ f.blocks = some m' →
      scan_file pol d cnt needw sub st = .ok
        ⟨⟨(d.files.eraseIdx j) ++ [newFileOf sub st], d.links, m'.arr, m'.ffb,
            d.has_not_persistent_inodes⟩,
          { cnt with change := cnt.change + 1 }, true, some sub, none⟩) := by
  constructor
  · intro h1 h2 h3
    simp [scan_file, hno, scan_file_path, hfp, hget, hwo, hne, scan_file_path2, hpres, hmeta,
      h1, h2, h3]
  · intro m' hg hrm
    have hguard : (f.size != 0 && st.st_size == 0 && !pol.force_zero) = false := by
      by_cases h1 : f.size = 0
      · simp [h1]
      · by_cases h2 : st.st_size = 0
        · by_cases h3 : pol.force_zero
          · simp [h3]
          · exact absurd ⟨h1, h2, by simpa using h3⟩ hg
        · simp [h2]
    simp [scan_file, hno, scan_file_path, hfp, hget, hwo, hne, scan_file_path2, hpres, hmeta,
      hguard, hrm, scan_file_new]

/-- Concrete instance of `scan_C4`: a one-block file whose size changed
from 100 to 200 is deleted through the delete path (its `BLK` hash is
retained in a Deleted cell), counted as one change and re-queued. -/
theorem scan_C4_witness :
    metadataMatch ⟨"a", 100, 1000, 0, 10, false, false, [⟨0, BlockState.BLK, [7]⟩]⟩
        ⟨11, 200, 2000, 0, 1⟩ = false ∧
    scan_file ⟨false, false⟩
        ⟨[⟨"a", 100, 1000, 0, 10, false, false, [⟨0, BlockState.BLK, [7]⟩]⟩], [],
          [Cell.file ⟨0, BlockState.BLK, [7]⟩], 1, false⟩
        counters0 false "a" ⟨11, 200, 2000, 0, 1⟩ =
      .ok ⟨⟨[newFileOf "a" ⟨11, 200, 2000, 0, 1⟩], [], [Cell.deleted [7]], 0, false⟩,
        { counters0 with change := 1 }, true, some "a", none⟩ := by
  refine ⟨by decide, ?_⟩
  have h := (scan_C4 ⟨false, false⟩
    ⟨[⟨"a", 100, 1000, 0, 10, false, false, [⟨0, BlockState.BLK, [7]⟩]⟩], [],
      [Cell.file ⟨0, BlockState.BLK, [7]⟩], 1, false⟩
    counters0 false "a" ⟨11, 200, 2000, 0, 1⟩ 0
    ⟨"a", 100, 1000, 0, 10, false, false, [⟨0, BlockState.BLK, [7]⟩]⟩
    (by decide) (by decide) (by decide) (by decide) (by decide) (by decide) (by decide)).2
    ⟨[Cell.deleted [7]], 0⟩ (by decide) (by decide)
  simpa using h

/-- The file record produced by the restore branch of the path lookup. -/
def restoredFile (f : SFile) (st : Stat) : SFile :=
  { (nsecUpgrade f st).1 with present := true, inode := st.st_ino }

/-- The file record produced by the equal branch of the path lookup. -/
def presentFile (f : SFile) (st : Stat) : SFile :=
  { (nsecUpgrade f st).1 with present := true }

theorem scan_file_path2_match (pol : Policy) (d : Disk) (cnt : Counters) (needw : Bool)
    (sub : String) (st : Stat) (j : Nat) (f : SFile)
    (hpres : f.present = false) (hmeta : metadataMatch f st = true) :
    scan_file_path2 pol d cnt needw sub st j f =
      (if d.has_not_persistent_inodes = false then
        .ok ⟨{ d with files := d.files.set j (restoredFile f st) },
          { cnt with restore := cnt.restore + 1 }, true, none, none⟩
      else
        .ok ⟨{ d with files := d.files.set j (presentFile f st) },
          { cnt with equal := cnt.equal + 1 }, needw || (nsecUpgrade f st).2, none, none⟩) := by
  by_cases hflag : d.has_not_persistent_inodes <;>
    simp [scan_file_path2, hpres, hmeta, hflag, restoredFile, presentFile]

/-- C6 (confirmed): in the path-lookup branch with matching metadata,
the file is counted as a restore exactly when the disk has persistent
inodes and the stored inode differs from `st_ino` (the inode is then
re-indexed to `st_ino` and the dirty bit raised); otherwise it is
counted as equal.  The hypotheses pin the branch and state the standing
invariants: a without-inode file has inode 0 and a real stat never
reports inode 0, and for an indexed file the code itself makes an equal
inode fatal, so a differing inode is assumed. -/
theorem scan_C6 (pol : Policy) (d : Disk) (cnt : Counters) (needw : Bool)
    (sub : String) (st : Stat) (j : Nat) (f : SFile)
    (hno : findInode d.files st.st_ino = none)
    (hfp : findPath d.files sub = some j)
    (hget : d.files[j]? = some f)
    (hmeta : metadataMatch f st = true)
    (hpres : f.present = false)
    (hwo : f.without_inode = true → f.inode = 0 ∧ st.st_ino ≠ 0)
    (hne : f.without_inode = false → f.inode ≠ st.st_ino) :
    ∃ r, scan_file pol d cnt needw sub st = .ok r ∧
      r.cnt.restore = cnt.restore +
        (if d.has_not_persistent_inodes = false ∧ f.inode ≠ st.st_ino then 1 else 0) ∧
      r.cnt.equal = cnt.equal +
        (if d.has_not_persistent_inodes = false ∧ f.inode ≠ st.st_ino then 0 else 1) ∧
      r.cnt.move = cnt.move ∧ r.cnt.change = cnt.change ∧ r.cnt.insert = cnt.insert ∧
      (d.has_not_persistent_inodes = false →
        (∃ f', r.disk.files[j]? = some f' ∧ f'.inode = st.st_ino) ∧ r.needw = true) := by
  have hjlt : j < d.files.length := by
    rcases List.getElem?_eq_some.mp hget with ⟨hlt, -⟩
    exact hlt
  by_cases hw : f.without_inode = true
  · obtain ⟨hi0, hsi⟩ := hwo hw
    have heq : scan_file pol d cnt needw sub st =
        scan_file_path2 pol d cnt needw sub st j
          { f with inode := st.st_ino, without_inode := false } := by
      simp [scan_file, hno, scan_file_path, hfp, hget, hw]
    have hpres1 : ({ f with inode := st.st_ino, without_inode := false } : SFile).present = false :=
      hpres
    have hmeta1 : metadataMatch { f with inode := st.st_ino, without_inode := false } st = true :=
      hmeta
    rw [heq, scan_file_path2_match pol d cnt needw sub st j _ hpres1 hmeta1]
    by_cases hflag : d.has_not_persistent_inodes = false
    · rw [if_pos hflag]
      have hcond : d.has_not_persistent_inodes = false ∧ f.inode ≠ st.st_ino :=
        ⟨hflag, by rw [hi0]; omega⟩
      refine ⟨_, rfl, ?_, ?_, rfl, rfl, rfl, ?_⟩
      · rw [if_pos hcond]
      · rw [if_pos hcond]; simp
      · intro _
        exact ⟨⟨_, getElem?_set_self_of_lt _ _ _ (by simpa using hjlt), rfl⟩, rfl⟩
    · rw [if_neg hflag]
      have hcond : ¬(d.has_not_persistent_inodes = false ∧ f.inode ≠ st.st_ino) :=
        fun h => hflag h.1
      refine ⟨_, rfl, ?_, ?_, rfl, rfl, rfl, ?_⟩
      · rw [if_neg hcond]; simp
      · rw [if_neg hcond]
      · intro h
        exact absurd h hflag
  · have hw' : f.without_inode = false := by simpa using hw
    have hne' : f.inode ≠ st.st_ino := hne hw'
    have heq : scan_file pol d cnt needw sub st =
        scan_file_path2 pol d cnt needw sub st j f := by
      simp [scan_file, hno, scan_file_path, hfp, hget, hw', hne']
    rw [heq, scan_file_path2_match pol d cnt needw sub st j f hpres hmeta]
    by_cases hflag : d.has_not_persistent_inodes = false
    · rw [if_pos hflag]
      have hcond : d.has_not_persistent_inodes = false ∧ f.inode ≠ st.st_ino := ⟨hflag, hne'⟩
      refine ⟨_, rfl, ?_, ?_, rfl, rfl, rfl, ?_⟩
      · rw [if_pos hcond]
      · rw [if_pos hcond]; simp
      · intro _
        exact ⟨⟨_, getElem?_set_self_of_lt _ _ _ (by simpa using hjlt), rfl⟩, rfl⟩
    · rw [if_neg hflag]
      have hcond : ¬(d.has_not_persistent_inodes = false ∧ f.inode ≠ st.st_ino) :=
        fun h => hflag h.1
      refine ⟨_, rfl, ?_, ?_, rfl, rfl, rfl, ?_⟩
      · rw [if_neg hcond]; simp
      · rw [if_neg hcond]
      · intro h
        exact absurd h hflag

/-- Concrete instance of `scan_C6`: same path, same size and mtime,
inode 10 rewritten as 17 on a persistent-inode disk counts one restore
and raises the dirty bit. -/
theorem scan_C6_witness :
    metadataMatch ⟨"a", 100, 1000, 0, 10, false, false, []⟩ ⟨17, 100, 1000, 0, 1⟩ = true ∧
    ∃ r, scan_file ⟨false, false⟩
        ⟨[⟨"a", 100, 1000, 0, 10, false, false, []⟩], [], [], 0, false⟩
        counters0 false "a" ⟨17, 100, 1000, 0, 1⟩ = .ok r ∧
      r.cnt.restore = 1 ∧ r.cnt.equal = 0 ∧ r.needw = true := by
  refine ⟨by decide, ?_⟩
  obtain ⟨r, h1, h2, h3, -, -, -, h7⟩ := scan_C6 ⟨false, false⟩
    ⟨[⟨"a", 100, 1000, 0, 10, false, false, []⟩], [], [], 0, false⟩ counters0 false "a"
    ⟨17, 100, 1000, 0, 1⟩ 0 ⟨"a", 100, 1000, 0, 10, false, false, []⟩
    (by decide) (by decide) (by decide) (by decide) (by decide) (by decide) (by decide)
  refine ⟨r, h1, ?_, ?_, (h7 rfl).2⟩
  · rw [if_pos ⟨rfl, by decide⟩] at h2
    simpa [counters0] using h2
  · rw [if_pos ⟨rfl, by decide⟩] at h3
    simpa [counters0] using h3

/-! ## The post-scan empty-disk guard -/

/-- The per-disk result line of `state_scan`: the disk name and its
change counters. -/
structure DiskScan where
  name : String
  cnt : Counters
deriving DecidableEq, Repr, Inhabited

/-- The per-disk condition of the empty-disk guard (src/scan.c line
1203). -/
def emptyDiskBad (c : Counters) : Bool :=
  c.equal == 0 && c.move == 0 && c.restore == 0 && (c.remove != 0 || c.change != 0)

/-- The empty-disk guard of `state_scan` (src/scan.c lines 1196-1221):
skipped entirely under `force_empty`; otherwise, if any disk matches the
condition the scan fails fatally and the message lists every matching
disk (returned here as `some` with the list of listed names). -/
def empty_disk_guard (force_empty : Bool) (l : List DiskScan) : Option (List String) :=
  if force_empty then none
  else
    let bad := (l.filter fun s => emptyDiskBad s.cnt).map (fun s => s.name)
    if bad.isEmpty then none else some bad

/-- C5 (confirmed): after the per-disk scans the guard fails exactly
when `force_empty` is unset and some disk has
`equal = move = restore = 0` with `remove ≠ 0` or `change ≠ 0`, and the
failure message lists precisely the names of the disks satisfying that
condition. -/
theorem empty_disk_guard_true (l : List DiskScan) : empty_disk_guard true l = none := rfl

theorem empty_disk_guard_false (l : List DiskScan) :
    empty_disk_guard false l =
      (if ((l.filter fun s => emptyDiskBad s.cnt).map (fun s => s.name)).isEmpty then none
       else some ((l.filter fun s => emptyDiskBad s.cnt).map (fun s => s.name))) := rfl

theorem scan_C5 (fe : Bool) (l : List DiskScan) :
    ((empty_disk_guard fe l).isSome = true ↔
      fe = false ∧ ∃ s ∈ l, emptyDiskBad s.cnt = true) ∧
    (∀ bad, empty_disk_guard fe l = some bad →
      ∀ nm, nm ∈ bad ↔ ∃ s ∈ l, s.name = nm ∧ emptyDiskBad s.cnt = true) := by
  by_cases hfe : fe = true
  · subst hfe
    constructor
    · rw [empty_disk_guard_true]
      simp
    · intro bad hbad
      rw [empty_disk_guard_true] at hbad
      cases hbad
  · have hfe' : fe = false := by simpa using hfe
    subst hfe'
    have hmem : ∀ nm, nm ∈ (l.filter fun s => emptyDiskBad s.cnt).map (fun s => s.name) ↔
        ∃ s ∈ l, s.name = nm ∧ emptyDiskBad s.cnt = true := by
      intro nm
      constructor
      · intro h
        obtain ⟨s, hs, hname⟩ := List.mem_map.mp h
        obtain ⟨hsl, hbad⟩ := List.mem_filter.mp hs
        exact ⟨s, hsl, hname, hbad⟩
      · rintro ⟨s, hsl, hname, hbad⟩
        exact List.mem_map.mpr ⟨s, List.mem_filter.mpr ⟨hsl, hbad⟩, hname⟩
    by_cases hb : ((l.filter fun s => emptyDiskBad s.cnt).map (fun s => s.name)).isEmpty = true
    · have hguard : empty_disk_guard false l = none := by
        rw [empty_disk_guard_false, if_pos hb]
      constructor
      · rw [hguard]
        simp only [Option.isSome_none]
        constructor
        · intro h; cases h
        · rintro ⟨-, s, hs, hbad⟩
          rw [List.isEmpty_iff] at hb
          have hcontra : s.name ∈ (l.filter fun s => emptyDiskBad s.cnt).map (fun s => s.name) :=
            (hmem s.name).mpr ⟨s, hs, rfl, hbad⟩
          rw [hb] at hcontra
          cases hcontra
      · intro bad hbad
        rw [hguard] at hbad
        cases hbad
    · have hguard : empty_disk_guard false l =
          some ((l.filter fun s => emptyDiskBad s.cnt).map (fun s => s.name)) := by
        rw [empty_disk_guard_false, if_neg hb]
      constructor
      · rw [hguard]
        simp only [Option.isSome_some, true_iff]
        refine ⟨trivial, ?_⟩
        cases hl : (l.filter fun s => emptyDiskBad s.cnt).map (fun s => s.name) with
        | nil => rw [hl] at hb; simp at hb
        | cons nm rest =>
          have hnm : nm ∈ (l.filter fun s => emptyDiskBad s.cnt).map (fun s => s.name) := by
            rw [hl]; simp
          obtain ⟨s, hsl, -, hbad⟩ := (hmem nm).mp hnm
          exact ⟨s, hsl, hbad⟩
      · intro bad hbad
        rw [hguard] at hbad
        cases hbad
        exact hmem

/-- Concrete instance of `scan_C5`: one disk whose files were all
removed fails the guard when `force_empty` is unset. -/
theorem scan_C5_witness :
    emptyDiskBad ⟨0, 0, 0, 0, 3, 0⟩ = true ∧
    (empty_disk_guard false [⟨"d1", ⟨0, 0, 0, 0, 3, 0⟩⟩]).isSome = true := by
  refine ⟨by decide, ?_⟩
  exact (scan_C5 false [⟨"d1", ⟨0, 0, 0, 0, 3, 0⟩⟩]).1.mpr
    ⟨rfl, ⟨"d1", ⟨0, 0, 0, 0, 3, 0⟩⟩, by simp, by decide⟩

/-! ## Claim C1: hash carried into a reused slot -/

/-- C1 counterexample: in the S4 scenario (two-block file at slots 0,1
with states `BLK`,`BLK` and hashes `H1 = 16 × 0x01`, `H2 = 16 × 0x02`,
deleted and reinserted after a change) with
`clear_undeterminate_hash = false`, the reinserted blocks do NOT carry
the hashes `H1`,`H2`: src/scan.c lines 262-273 zero the Deleted cell's
hash by `memset` before line 276 copies it, so both blocks get the
all-zero hash.  This falsifies the claim as stated. -/
theorem scan_C1_cex :
    ((insertBlocks false
        ((removeBlocks false
            ⟨[Cell.file ⟨0, BlockState.BLK, List.replicate HASH_SIZE 1⟩,
              Cell.file ⟨1, BlockState.BLK, List.replicate HASH_SIZE 2⟩], 2⟩
            [⟨0, BlockState.BLK, List.replicate HASH_SIZE 1⟩,
             ⟨1, BlockState.BLK, List.replicate HASH_SIZE 2⟩]).getD ⟨[], 0⟩) 2).2.map
        (fun b => (b.state, b.hash))) =
      [(BlockState.CHG, zeroHash), (BlockState.CHG, zeroHash)] ∧
    ¬ ((insertBlocks false
        ((removeBlocks false
            ⟨[Cell.file ⟨0, BlockState.BLK, List.replicate HASH_SIZE 1⟩,
              Cell.file ⟨1, BlockState.BLK, List.replicate HASH_SIZE 2⟩], 2⟩
            [⟨0, BlockState.BLK, List.replicate HASH_SIZE 1⟩,
             ⟨1, BlockState.BLK, List.replicate HASH_SIZE 2⟩]).getD ⟨[], 0⟩) 2).2.map
        (fun b => b.hash)) =
      [List.replicate HASH_SIZE 1, List.replicate HASH_SIZE 2] := by
  constructor
  · decide
  · decide

/-- C1 amended: reusing a Deleted slot sets the new block's state to
`CHG` and copies the cell's hash as it stands at the moment of the copy;
unless `clear_undeterminate_hash` is set the cell's hash has just been
zeroed, so in the S4 scenario the reinserted file's blocks have states
`CHG`,`CHG` and hashes `H1`,`H2` when `clear_undeterminate_hash` is set
and all-zero hashes otherwise; `block_map[0]`,`[1]` reference the new
blocks either way. -/
theorem scan_C1_amended (clear : Bool) (h1 h2 : Hash) :
    ∃ m1, removeBlocks clear
        ⟨[Cell.file ⟨0, BlockState.BLK, h1⟩, Cell.file ⟨1, BlockState.BLK, h2⟩], 2⟩
        [⟨0, BlockState.BLK, h1⟩, ⟨1, BlockState.BLK, h2⟩] = some m1 ∧
      ((insertBlocks clear m1 2).2.map (fun b => (b.state, b.hash))) =
        [(BlockState.CHG, if clear then h1 else zeroHash),
         (BlockState.CHG, if clear then h2 else zeroHash)] ∧
      (insertBlocks clear m1 2).1.arr =
        [Cell.file ⟨0, BlockState.CHG, if clear then h1 else zeroHash⟩,
         Cell.file ⟨1, BlockState.CHG, if clear then h2 else zeroHash⟩] ∧
      (insertBlocks clear m1 2).1.ffb = 2 := by
  cases clear
  · exact ⟨⟨[Cell.deleted h1, Cell.deleted h2], 0⟩, rfl, rfl, rfl, rfl⟩
  · exact ⟨⟨[Cell.deleted h1, Cell.deleted h2], 0⟩, rfl, rfl, rfl, rfl⟩

/-! ## The per-disk driver (state_scan) -/

/-- One pre-statted directory entry handed to the reconciler: the
directory walk of `scan_dir` (filters, recursion, `lstat`) is abstracted
by the resulting flat list of regular files in traversal order. -/
structure FsEntry where
  sub : String
  st : Stat
deriving DecidableEq, Repr, Inhabited

/-- The removal sweep over the file list (src/scan.c lines 1052-1073):
every file not marked present counts one remove and goes through the
block-allocator delete path (which sets `need_write`); returns the
surviving files, the updated block map, the number of removals and
whether `need_write` was set. -/
def sweepFiles (clear : Bool) (m : BlockMap) :
    List SFile → Option (List SFile × BlockMap × Nat × Bool)
  | [] => some ([], m, 0, false)
  | f :: rest =>
    if f.present then
      match sweepFiles clear m rest with
      | none => none
      | some (fs, m', n, w) => some (f :: fs, m', n, w)
    else
      match removeBlocks clear m f.blocks with
      | none => none
      | some m1 =>
        match sweepFiles clear m1 rest with
        | none => none
        | some (fs, m', n, _) => some (fs, m', n + 1, true)

/-- The removal sweep over the link list (src/scan.c lines 1076-1097):
returns survivors, removal count, and whether `need_write` was set. -/
def sweepLinks : List SLink → List SLink × Nat × Bool
  | [] => ([], 0, false)
  | l :: rest =>
    let r := sweepLinks rest
    if l.present then (l :: r.1, r.2.1, r.2.2) else (r.1, r.2.1 + 1, true)

/-- The deferred file-insert phase (src/scan.c lines 1143-1163): each
queued file gets its blocks allocated by the insert path, and
`scan_file_insert` sets `need_write` for every processed file.  The
queue holds the files' subs (the files are already in the file list);
the claims do not depend on `force_order`, so the queue keeps traversal
(`SORT_DIR`) order. -/
def insertQueued (clear : Bool) (bsz : Nat) :
    List SFile → BlockMap → Bool → List String → List SFile × BlockMap × Bool
  | files, m, needw, [] => (files, m, needw)
  | files, m, needw, s :: rest =>
    match findPath files s with
    | none => insertQueued clear bsz files m needw rest
    | some j =>
      let f := (files[j]?).getD default
      let r := insertBlocks clear m (blockmaxOf bsz f.size)
      insertQueued clear bsz (files.set j { f with blocks := r.2 }) r.1 true rest

/-- The deferred link-insert phase (src/scan.c lines 1171-1181):
`scan_link_insert` appends each queued link and sets `need_write`. -/
def insertLinks : List SLink → Bool → List SLink → List SLink × Bool
  | links, needw, [] => (links, needw)
  | links, needw, l :: rest => insertLinks (links ++ [l]) true rest

/-- The walk phase of one disk: `scan_file` applied to each directory
entry in order, accumulating the deferred-insert queues. -/
def scan_walk (pol : Policy) :
    Disk → Counters → Bool → List String → List SLink → List FsEntry →
      Except Fatal (Disk × Counters × Bool × List String × List SLink)
  | d, cnt, needw, qf, ql, [] => .ok (d, cnt, needw, qf, ql)
  | d, cnt, needw, qf, ql, e :: rest =>
    match scan_file pol d cnt needw e.sub e.st with
    | .error x => .error x
    | .ok r => scan_walk pol r.disk r.cnt r.needw (qf ++ r.qfile.toList) (ql ++ r.qlink.toList) rest

/-- The result of scanning one disk: the mutated catalog, the per-disk
counters, and whether this run set `need_write`. -/
structure ScanDiskRes where
  disk : Disk
  cnt : Counters
  needw : Bool
deriving DecidableEq, Repr, Inhabited

/-- The inode wipe applied to every file of a non-persistent-inode disk
at scan start (src/scan.c lines 1032-1046). -/
def wipeFile (f : SFile) : SFile := { f with inode := 0, without_inode := true }

/-- The per-disk body of `state_scan` (src/scan.c lines 993-1194):
probe inode persistence and wipe the inode index if not persistent, walk
the directory entries, sweep removed files and links, then run the
deferred insert phases.  Counters start at zero and `need_write` starts
unset, its returned value meaning "this run raised `need_write`".
Empty-dir handling and the physical-offset bookkeeping are omitted (no
claim involves them). -/
def scan_disk (pol : Policy) (bsz : Nat) (persistent : Bool) (d0 : Disk)
    (fs : List FsEntry) : Except Fatal ScanDiskRes :=
  let d := if persistent then d0 else
    { d0 with has_not_persistent_inodes := true, files := d0.files.map wipeFile }
  match scan_walk pol d counters0 false [] [] fs with
  | .error x => .error x
  | .ok (d1, cnt, needw, qf, ql) =>
    match sweepFiles pol.clear_undeterminate_hash
        ⟨d1.blockarr, d1.first_free_block⟩ d1.files with
    | none => .error .badBlockState
    | some (files1, m1, nremf, w1) =>
      let rl := sweepLinks d1.links
      let cnt1 := { cnt with remove := cnt.remove + nremf + rl.2.1 }
      let needw1 := needw || w1 || rl.2.2
      let r2 := insertQueued pol.clear_undeterminate_hash bsz files1 m1 needw1 qf
      let r3 := insertLinks rl.1 r2.2.2 ql
      .ok ⟨⟨r2.1, r3.1, r2.2.1.arr, r2.2.1.ffb, d1.has_not_persistent_inodes⟩, cnt1, r3.2⟩

/-- The caller contract between runs (spec §4.1 step 2): `PRESENT`
flags cleared on every file and link before a scan starts. -/
def clearPresent (d : Disk) : Disk :=
  { d with files := d.files.map (fun f => { f with present := false }),
           links := d.links.map (fun l => { l with present := false }) }

/-! ## List helpers for the idempotence proof -/

theorem mem_set_of_ne {α : Type} (l : List α) (j : Nat) (v a b : α)
    (ha : a ∈ l) (hb : l[j]? = some b) (hab : a ≠ b) : a ∈ l.set j v := by
  induction l generalizing j with
  | nil => cases ha
  | cons x t ih =>
    cases j with
    | zero =>
      have hb' : x = b := by simpa using hb
      rcases List.mem_cons.mp ha with rfl | hm
      · exact absurd hb' hab
      · simp [List.set, hm]
    | succ j' =>
      simp only [List.getElem?_cons_succ] at hb
      rcases List.mem_cons.mp ha with rfl | hm
      · simp [List.set]
      · simp only [List.set]
        exact List.mem_cons_of_mem _ (ih j' hm hb)

theorem mem_eraseIdx_of_ne {α : Type} (l : List α) (j : Nat) (a b : α)
    (ha : a ∈ l) (hb : l[j]? = some b) (hab : a ≠ b) : a ∈ l.eraseIdx j := by
  induction l generalizing j with
  | nil => cases ha
  | cons x t ih =>
    cases j with
    | zero =>
      have hb' : x = b := by simpa using hb
      rcases List.mem_cons.mp ha with rfl | hm
      · exact absurd hb' hab
      · simpa [List.eraseIdx] using hm
    | succ j' =>
      simp only [List.getElem?_cons_succ] at hb
      rcases List.mem_cons.mp ha with rfl | hm
      · simp [List.eraseIdx]
      · simp only [List.eraseIdx]
        exact List.mem_cons_of_mem _ (ih j' hm hb)

theorem mem_of_mem_eraseIdx {α : Type} (l : List α) (j : Nat) (a : α)
    (ha : a ∈ l.eraseIdx j) : a ∈ l := by
  induction l generalizing j with
  | nil => simp [List.eraseIdx] at ha
  | cons x t ih =>
    cases j with
    | zero => simp only [List.eraseIdx] at ha; exact List.mem_cons_of_mem _ ha
    | succ j' =>
      simp only [List.eraseIdx] at ha
      rcases List.mem_cons.mp ha with rfl | hm
      · simp
      · exact List.mem_cons_of_mem _ (ih j' hm)

theorem filter_set_mark {α : Type} (p : α → Bool) (l : List α) (j : Nat) (b v : α)
    (hb : l[j]? = some b) (hpb : p b = false) (hpv : p v = true) :
    List.Perm ((l.set j v).filter p) (v :: l.filter p) := by
  induction l generalizing j with
  | nil => simp at hb
  | cons x t ih =>
    cases j with
    | zero =>
      simp at hb
      subst hb
      simp [List.set, List.filter, hpb, hpv]
    | succ j' =>
      simp only [List.getElem?_cons_succ] at hb
      simp only [List.set, List.filter]
      by_cases hx : p x = true
      · rw [hx]
        exact ((ih j' hb).cons x).trans (List.Perm.swap v x _)
      · rw [Bool.not_eq_true] at hx
        rw [hx]
        exact ih j' hb

theorem filter_set_unmark {α : Type} (p : α → Bool) (l : List α) (j : Nat) (b v : α)
    (hb : l[j]? = some b) (hpb : p b = false) (hpv : p v = false) :
    (l.set j v).filter p = l.filter p := by
  induction l generalizing j with
  | nil => simp
  | cons x t ih =>
    cases j with
    | zero =>
      simp at hb
      subst hb
      simp [List.set, List.filter, hpb, hpv]
    | succ j' =>
      simp only [List.getElem?_cons_succ] at hb
      simp only [List.set, List.filter]
      rw [ih j' hb]

theorem filter_eraseIdx_not {α : Type} (p : α → Bool) (l : List α) (j : Nat) (b : α)
    (hb : l[j]? = some b) (hpb : p b = false) :
    (l.eraseIdx j).filter p = l.filter p := by
  induction l generalizing j with
  | nil => simp
  | cons x t ih =>
    cases j with
    | zero =>
      simp at hb
      subst hb
      simp [List.eraseIdx, List.filter, hpb]
    | succ j' =>
      simp only [List.getElem?_cons_succ] at hb
      simp only [List.eraseIdx, List.filter]
      rw [ih j' hb]

theorem nodup_map_inj {α β : Type} (g : α → β) (l : List α)
    (h : (l.map g).Nodup) (i j : Nat) (a b : α)
    (ha : l[i]? = some a) (hb : l[j]? = some b) (hg : g a = g b) : i = j := by
  have hi : i < l.length := by
    rcases List.getElem?_eq_some.mp ha with ⟨hl, -⟩
    exact hl
  refine List.getElem?_inj ?_ h ?_
  · simpa using hi
  · rw [List.getElem?_map, List.getElem?_map, ha, hb]
    simpa using hg

theorem map_set_self {α β : Type} (g : α → β) (l : List α) (j : Nat) (a v : α)
    (ha : l[j]? = some a) (hg : g v = g a) : (l.set j v).map g = l.map g := by
  rw [List.map_set]
  apply set_self_of_getElem?
  rw [List.getElem?_map, ha]
  simp [hg]

/-! ## Invariants for the idempotence theorem -/

/-- The stored nanosecond field needs no upgrade against this stat. -/
def noUpg (f : SFile) (st : Stat) : Prop :=
  f.mtime_nsec = STAT_NSEC_INVALID → st.st_nsec = STAT_NSEC_INVALID

/-- A catalog file agrees with a directory entry on path and metadata. -/
def MatchesP (f : SFile) (e : FsEntry) : Prop :=
  f.sub = e.sub ∧ metadataMatch f e.st = true ∧ noUpg f e.st

/-- A catalog file fully reconciled with a directory entry: indexed
under the entry's inode and agreeing on path and metadata. -/
def Matches (f : SFile) (e : FsEntry) : Prop :=
  f.inode = e.st.st_ino ∧ f.without_inode = false ∧ MatchesP f e

theorem nsecUpgrade_noUpg (f : SFile) (st : Stat) (h : noUpg f st) :
    nsecUpgrade f st = (f, false) := by
  by_cases h1 : f.mtime_nsec = STAT_NSEC_INVALID
  · have h2 := h h1
    simp [nsecUpgrade, h1, h2]
  · simp [nsecUpgrade, h1]

/-- An entry processed by a second scan over a fully reconciled catalog
hits the by-inode equal branch: one equal count, presence marked,
nothing else changes. -/
theorem scan2_pers_step (pol : Policy) (d : Disk) (cnt : Counters) (needw : Bool)
    (e : FsEntry) (j : Nat) (f : SFile)
    (hget : d.files[j]? = some f)
    (hm : Matches f e)
    (hp : f.present = false)
    (huniq : ∀ i g, d.files[i]? = some g → g.without_inode = false →
      g.inode = e.st.st_ino → i = j) :
    scan_file pol d cnt needw e.sub e.st =
      .ok ⟨{ d with files := d.files.set j ({ f with present := true }) },
        { cnt with equal := cnt.equal + 1 }, needw, none, none⟩ := by
  obtain ⟨hino, hwo, hsub, hmeta, hnu⟩ := hm
  have hpred : (fun g => !g.without_inode && g.inode == e.st.st_ino) f = true := by
    simp [hwo, hino]
  have hfind : findInode d.files e.st.st_ino = some j := by
    apply findIdxO_unique _ _ j f hget hpred
    intro i g hig hpg
    simp only [Bool.and_eq_true, Bool.not_eq_true', beq_iff_eq] at hpg
    exact huniq i g hig hpg.1 hpg.2
  have hupg : nsecUpgrade f e.st = (f, false) := nsecUpgrade_noUpg f e.st hnu
  simp [scan_file, hfind, hget, hmeta, hp, hupg, hsub]

/-- The file record produced by the equal branch for a without-inode
file found by path: inode restored from the stat, flag cleared, marked
present. -/
def reindexedFile (f : SFile) (ino : Nat) : SFile :=
  { f with inode := ino, without_inode := false, present := true }

/-- An entry processed by a second scan over a reconciled catalog on a
non-persistent-inode disk (inodes wiped at scan start) hits the by-path
equal branch: the inode is restored silently and one equal is counted. -/
theorem scan2_nonpers_step (pol : Policy) (d : Disk) (cnt : Counters) (needw : Bool)
    (e : FsEntry) (j : Nat) (f : SFile)
    (hflag : d.has_not_persistent_inodes = true)
    (hget : d.files[j]? = some f)
    (hm : MatchesP f e)
    (hp : f.present = false)
    (hwo : f.without_inode = true)
    (hnone : ∀ g ∈ d.files, g.without_inode = false → g.inode ≠ e.st.st_ino)
    (huniq : ∀ i g, d.files[i]? = some g → g.sub = e.sub → i = j) :
    scan_file pol d cnt needw e.sub e.st =
      .ok ⟨{ d with files := d.files.set j (reindexedFile f e.st.st_ino) },
        { cnt with equal := cnt.equal + 1 }, needw, none, none⟩ := by
  obtain ⟨hsub, hmeta, hnu⟩ := hm
  have hfind : findInode d.files e.st.st_ino = none := by
    apply findIdxO_none
    intro g hg
    by_cases hw : g.without_inode = true
    · simp [hw]
    · have hw' : g.without_inode = false := by simpa using hw
      have hne := hnone g hg hw'
      simp [hw', hne]
  have hfp : findPath d.files e.sub = some j := by
    apply findIdxO_unique _ _ j f hget (by simp [hsub])
    intro i g hig hpg
    exact huniq i g hig (by simpa using hpg)
  have hupg : nsecUpgrade { f with inode := e.st.st_ino, without_inode := false } e.st =
      ({ f with inode := e.st.st_ino, without_inode := false }, false) :=
    nsecUpgrade_noUpg _ e.st hnu
  have hmeta1 : metadataMatch { f with inode := e.st.st_ino, without_inode := false } e.st
      = true := hmeta
  have hp1 : ({ f with inode := e.st.st_ino, without_inode := false } : SFile).present
      = false := hp
  simp [scan_file, hfind, scan_file_path, hfp, hget, hwo, scan_file_path2,
    hp1, hmeta1, hflag, hupg, reindexedFile]
  exact hp

/-- Invariant of the second scan on a persistent-inode disk: every
pending entry owns a distinct not-yet-present reconciled file, every
not-yet-present file answers to a pending entry, inodes are unique and
no file is flagged without-inode. -/
def Inv2P (todo : List FsEntry) (files : List SFile) : Prop :=
  (∀ e ∈ todo, ∃ (j : Nat) (f : SFile), files[j]? = some f ∧ Matches f e ∧ f.present = false) ∧
  (∀ f ∈ files, f.present = false → ∃ e ∈ todo, Matches f e) ∧
  (files.map (fun f => f.inode)).Nodup ∧
  (∀ f ∈ files, f.without_inode = false)

theorem walk2_pers (pol : Policy) :
    ∀ (todo : List FsEntry) (d : Disk) (cnt : Counters) (needw : Bool)
      (qf : List String) (ql : List SLink),
      (todo.map (fun e => e.st.st_ino)).Nodup →
      Inv2P todo d.files →
      ∃ files', scan_walk pol d cnt needw qf ql todo =
          .ok (⟨files', d.links, d.blockarr, d.first_free_block,
              d.has_not_persistent_inodes⟩,
            { cnt with equal := cnt.equal + todo.length }, needw, qf, ql) ∧
        ∀ f ∈ files', f.present = true := by
  intro todo
  induction todo with
  | nil =>
    intro d cnt needw qf ql _ hinv
    obtain ⟨-, hb, -, -⟩ := hinv
    refine ⟨d.files, rfl, ?_⟩
    intro f hf
    cases hp : f.present
    · obtain ⟨e, he, -⟩ := hb f hf hp
      cases he
    · rfl
  | cons e rest ih =>
    intro d cnt needw qf ql hnd hinv
    obtain ⟨ha, hb, hc, hd2⟩ := hinv
    obtain ⟨j, f, hget, hm, hp⟩ := ha e (by simp)
    have hjlt : j < d.files.length := by
      rcases List.getElem?_eq_some.mp hget with ⟨hl, -⟩
      exact hl
    have hnd' : (rest.map (fun x => x.st.st_ino)).Nodup := by
      rw [List.map_cons, List.nodup_cons] at hnd
      exact hnd.2
    have hnotin : e.st.st_ino ∉ rest.map (fun x => x.st.st_ino) := by
      rw [List.map_cons, List.nodup_cons] at hnd
      exact hnd.1
    have huniq : ∀ i g, d.files[i]? = some g → g.without_inode = false →
        g.inode = e.st.st_ino → i = j := by
      intro i g hig _ hgi
      exact nodup_map_inj _ d.files hc i j g f hig hget (by rw [hgi, hm.1])
    have hstep := scan2_pers_step pol d cnt needw e j f hget hm hp huniq
    have hset : d.files.set j { f with present := true } =
        ({ d with files := d.files.set j ({ f with present := true }) } : Disk).files := rfl
    -- the catalog after marking f present
    have hinv' : Inv2P rest (d.files.set j ({ f with present := true })) := by
      refine ⟨?_, ?_, ?_, ?_⟩
      · intro e' he'
        obtain ⟨j', f', hget', hm', hp'⟩ := ha e' (by simp [he'])
        have hjj : j' ≠ j := by
          intro hjeq
          subst hjeq
          rw [hget'] at hget
          cases hget
          have : e'.st.st_ino = e.st.st_ino := by rw [← hm'.1, hm.1]
          exact hnotin (this ▸ List.mem_map_of_mem _ he')
        exact ⟨j', f', by rw [getElem?_set_other _ _ _ _ (fun h => hjj h.symm)]; exact hget',
          hm', hp'⟩
      · intro f'' hf'' hp''
        obtain ⟨i, hi⟩ := List.getElem?_of_mem hf''
        have hij : i ≠ j := by
          intro hijeq
          subst hijeq
          rw [getElem?_set_self_of_lt _ _ _ hjlt] at hi
          cases hi
          simp at hp''
        rw [getElem?_set_other _ _ _ _ (fun h => hij h.symm)] at hi
        have hmem : f'' ∈ d.files := List.mem_iff_getElem?.mpr ⟨i, hi⟩
        obtain ⟨e', he', hm''⟩ := hb f'' hmem hp''
        rcases List.mem_cons.mp he' with rfl | hrest
        · exfalso
          apply hij
          exact nodup_map_inj _ d.files hc i j f'' f hi hget (by rw [hm''.1, hm.1])
        · exact ⟨e', hrest, hm''⟩
      · have hg0 : (fun (x : SFile) => x.inode) ({ f with present := true } : SFile) =
            (fun (x : SFile) => x.inode) f := rfl
        rw [map_set_self (fun x => x.inode) d.files j f ({ f with present := true }) hget hg0]
        exact hc
      · intro f'' hf''
        rcases List.mem_or_eq_of_mem_set hf'' with hmem | rfl
        · exact hd2 f'' hmem
        · exact hm.2.1
    obtain ⟨files', hwalk, hpres⟩ := ih { d with files := d.files.set j ({ f with present := true }) }
      { cnt with equal := cnt.equal + 1 } needw qf ql hnd' hinv'
    refine ⟨files', ?_, hpres⟩
    simp only [scan_walk]
    rw [hstep]
    simp only [Option.toList_none, List.append_nil]
    rw [hwalk]
    have hlen : cnt.equal + 1 + rest.length = cnt.equal + (e :: rest).length := by
      simp
      omega
    rw [hlen]

/-- Invariant of the second scan on a non-persistent-inode disk (after
the wipe): every pending entry owns a distinct wiped not-yet-present
file matching it by path and metadata, every not-yet-present file
answers to a pending entry, subs are unique, and every re-indexed file
belongs to an entry already processed. -/
def Inv2N (todo : List FsEntry) (files : List SFile) : Prop :=
  (∀ e ∈ todo, ∃ (j : Nat) (f : SFile), files[j]? = some f ∧ MatchesP f e ∧
    f.present = false ∧ f.without_inode = true) ∧
  (∀ f ∈ files, f.present = false → ∃ e ∈ todo, MatchesP f e) ∧
  (files.map (fun f => f.sub)).Nodup ∧
  (∀ f ∈ files, f.without_inode = false → ∀ e ∈ todo, f.inode ≠ e.st.st_ino)

theorem walk2_nonpers (pol : Policy) :
    ∀ (todo : List FsEntry) (d : Disk) (cnt : Counters) (needw : Bool)
      (qf : List String) (ql : List SLink),
      d.has_not_persistent_inodes = true →
      (todo.map (fun e => e.sub)).Nodup →
      (todo.map (fun e => e.st.st_ino)).Nodup →
      Inv2N todo d.files →
      ∃ files', scan_walk pol d cnt needw qf ql todo =
          .ok (⟨files', d.links, d.blockarr, d.first_free_block,
              d.has_not_persistent_inodes⟩,
            { cnt with equal := cnt.equal + todo.length }, needw, qf, ql) ∧
        ∀ f ∈ files', f.present = true := by
  intro todo
  induction todo with
  | nil =>
    intro d cnt needw qf ql _ _ _ hinv
    obtain ⟨-, hb, -, -⟩ := hinv
    refine ⟨d.files, rfl, ?_⟩
    intro f hf
    cases hp : f.present
    · obtain ⟨e, he, -⟩ := hb f hf hp
      cases he
    · rfl
  | cons e rest ih =>
    intro d cnt needw qf ql hflag hnds hndi hinv
    obtain ⟨ha, hb, hc, hd2⟩ := hinv
    obtain ⟨j, f, hget, hm, hp, hwo⟩ := ha e (by simp)
    have hjlt : j < d.files.length := by
      rcases List.getElem?_eq_some.mp hget with ⟨hl, -⟩
      exact hl
    have hnds' : (rest.map (fun x => x.sub)).Nodup := by
      rw [List.map_cons, List.nodup_cons] at hnds
      exact hnds.2
    have hnotins : e.sub ∉ rest.map (fun x => x.sub) := by
      rw [List.map_cons, List.nodup_cons] at hnds
      exact hnds.1
    have hndi' : (rest.map (fun x => x.st.st_ino)).Nodup := by
      rw [List.map_cons, List.nodup_cons] at hndi
      exact hndi.2
    have hnotini : e.st.st_ino ∉ rest.map (fun x => x.st.st_ino) := by
      rw [List.map_cons, List.nodup_cons] at hndi
      exact hndi.1
    have hnone : ∀ g ∈ d.files, g.without_inode = false → g.inode ≠ e.st.st_ino :=
      fun g hg hw => hd2 g hg hw e (by simp)
    have huniq : ∀ i g, d.files[i]? = some g → g.sub = e.sub → i = j := by
      intro i g hig hgs
      exact nodup_map_inj _ d.files hc i j g f hig hget (by rw [hgs, hm.1])
    have hstep := scan2_nonpers_step pol d cnt needw e j f hflag hget hm hp hwo hnone huniq
    have hinv' : Inv2N rest (d.files.set j (reindexedFile f e.st.st_ino)) := by
      refine ⟨?_, ?_, ?_, ?_⟩
      · intro e' he'
        obtain ⟨j', f', hget', hm', hp', hwo'⟩ := ha e' (by simp [he'])
        have hjj : j' ≠ j := by
          intro hjeq
          subst hjeq
          rw [hget'] at hget
          cases hget
          have hss : e'.sub = e.sub := by rw [← hm'.1, hm.1]
          exact hnotins (hss ▸ List.mem_map_of_mem _ he')
        exact ⟨j', f', by rw [getElem?_set_other _ _ _ _ (fun h => hjj h.symm)]; exact hget',
          hm', hp', hwo'⟩
      · intro f'' hf'' hp''
        obtain ⟨i, hi⟩ := List.getElem?_of_mem hf''
        have hij : i ≠ j := by
          intro hijeq
          subst hijeq
          rw [getElem?_set_self_of_lt _ _ _ hjlt] at hi
          cases hi
          simp [reindexedFile] at hp''
        rw [getElem?_set_other _ _ _ _ (fun h => hij h.symm)] at hi
        have hmem : f'' ∈ d.files := List.mem_iff_getElem?.mpr ⟨i, hi⟩
        obtain ⟨e', he', hm''⟩ := hb f'' hmem hp''
        rcases List.mem_cons.mp he' with rfl | hrest
        · exfalso
          apply hij
          exact nodup_map_inj _ d.files hc i j f'' f hi hget (by rw [hm''.1, hm.1])
        · exact ⟨e', hrest, hm''⟩
      · have hg0 : (fun (x : SFile) => x.sub) (reindexedFile f e.st.st_ino) =
            (fun (x : SFile) => x.sub) f := rfl
        rw [map_set_self (fun x => x.sub) d.files j f (reindexedFile f e.st.st_ino) hget hg0]
        exact hc
      · intro f'' hf'' hw'' e' he'
        rcases List.mem_or_eq_of_mem_set hf'' with hmem | rfl
        · exact hd2 f'' hmem hw'' e' (by simp [he'])
        · show e.st.st_ino ≠ e'.st.st_ino
          intro hee
          exact hnotini (hee ▸ List.mem_map_of_mem _ he')
    obtain ⟨files', hwalk, hpres⟩ := ih
      { d with files := d.files.set j (reindexedFile f e.st.st_ino) }
      { cnt with equal := cnt.equal + 1 } needw qf ql hflag hnds' hndi' hinv'
    refine ⟨files', ?_, hpres⟩
    simp only [scan_walk]
    rw [hstep]
    simp only [Option.toList_none, List.append_nil]
    rw [hwalk]
    have hlen : cnt.equal + 1 + rest.length = cnt.equal + (e :: rest).length := by
      simp
      omega
    rw [hlen]

theorem sweepFiles_all_present (clear : Bool) :
    ∀ (files : List SFile) (m : BlockMap), (∀ f ∈ files, f.present = true) →
      sweepFiles clear m files = some (files, m, 0, false) := by
  intro files
  induction files with
  | nil => intro m _; rfl
  | cons f rest ih =>
    intro m h
    have hf : f.present = true := h f (by simp)
    simp only [sweepFiles, hf, if_true]
    rw [ih m (fun g hg => h g (by simp [hg]))]

/-- A fully reconciled catalog for a directory listing: files and
entries correspond by path, inode and metadata, with unique inodes and
paths. -/
def GoodCat (fs : List FsEntry) (files : List SFile) : Prop :=
  (∀ f ∈ files, ∃ e ∈ fs, Matches f e) ∧
  (∀ e ∈ fs, ∃ f ∈ files, Matches f e) ∧
  (files.map (fun f => f.inode)).Nodup ∧
  (files.map (fun f => f.sub)).Nodup

/-- A second scan over a reconciled catalog with cleared presence flags
produces only equal classifications: no differences and no dirty bit. -/
theorem scan2_zero (pol : Policy) (bsz : Nat) (persistent : Bool) (d : Disk)
    (fs : List FsEntry)
    (hflag : d.has_not_persistent_inodes = (!persistent))
    (hlinks : d.links = [])
    (hsub : (fs.map (fun e => e.sub)).Nodup)
    (hino : (fs.map (fun e => e.st.st_ino)).Nodup)
    (hgood : GoodCat fs d.files)
    (hpres : ∀ f ∈ d.files, f.present = false) :
    ∃ r, scan_disk pol bsz persistent d fs = .ok r ∧
      r.cnt.move = 0 ∧ r.cnt.restore = 0 ∧ r.cnt.change = 0 ∧ r.cnt.remove = 0 ∧
      r.cnt.insert = 0 ∧ r.cnt.equal = fs.length ∧ r.needw = false := by
  obtain ⟨hg1, hg2, hg3, hg4⟩ := hgood
  cases persistent
  · -- non-persistent: the wipe runs first
    have hflag' : d.has_not_persistent_inodes = true := by simpa using hflag
    have hinv : Inv2N fs (d.files.map wipeFile) := by
      refine ⟨?_, ?_, ?_, ?_⟩
      · intro e he
        obtain ⟨f, hf, hm⟩ := hg2 e he
        obtain ⟨i, hi⟩ := List.getElem?_of_mem hf
        refine ⟨i, wipeFile f, ?_, hm.2.2, hpres f hf, rfl⟩
        rw [List.getElem?_map, hi]
        rfl
      · intro f'' hf'' _
        obtain ⟨f0, hf0, rfl⟩ := List.mem_map.mp hf''
        obtain ⟨e, he, hm⟩ := hg1 f0 hf0
        exact ⟨e, he, hm.2.2⟩
      · have hms : (d.files.map wipeFile).map (fun x => x.sub) =
            d.files.map (fun x => x.sub) := by
          rw [List.map_map]
          rfl
        rw [hms]
        exact hg4
      · intro f'' hf'' hw''
        obtain ⟨f0, hf0, rfl⟩ := List.mem_map.mp hf''
        simp [wipeFile] at hw''
    obtain ⟨files', hwalk, hallp⟩ := walk2_nonpers pol fs
      { d with has_not_persistent_inodes := true, files := d.files.map wipeFile }
      counters0 false [] [] rfl hsub hino hinv
    have hsw := sweepFiles_all_present pol.clear_undeterminate_hash files'
      ⟨d.blockarr, d.first_free_block⟩ hallp
    refine ⟨⟨⟨files', [], d.blockarr, d.first_free_block, true⟩,
      { counters0 with equal := counters0.equal + fs.length, remove := 0 }, false⟩, ?_,
      rfl, rfl, rfl, rfl, rfl, by simp [counters0], rfl⟩
    simp only [scan_disk, Bool.false_eq_true, if_false]
    rw [hwalk]
    simp only
    rw [hsw]
    simp only [hlinks, sweepLinks, insertQueued, insertLinks]
    rfl
  · -- persistent: no wipe
    have hflag' : d.has_not_persistent_inodes = false := by simpa using hflag
    have hinv : Inv2P fs d.files := by
      refine ⟨?_, ?_, hg3, ?_⟩
      · intro e he
        obtain ⟨f, hf, hm⟩ := hg2 e he
        obtain ⟨i, hi⟩ := List.getElem?_of_mem hf
        exact ⟨i, f, hi, hm, hpres f hf⟩
      · intro f hf _
        exact hg1 f hf
      · intro f hf
        exact (hg1 f hf).choose_spec.2.2.1
    obtain ⟨files', hwalk, hallp⟩ := walk2_pers pol fs d counters0 false [] [] hino hinv
    have hsw := sweepFiles_all_present pol.clear_undeterminate_hash files'
      ⟨d.blockarr, d.first_free_block⟩ hallp
    refine ⟨⟨⟨files', [], d.blockarr, d.first_free_block, d.has_not_persistent_inodes⟩,
      { counters0 with equal := counters0.equal + fs.length, remove := 0 }, false⟩, ?_,
      rfl, rfl, rfl, rfl, rfl, by simp [counters0], rfl⟩
    simp only [scan_disk, if_true]
    rw [hwalk]
    simp only
    rw [hsw]
    simp only [hlinks, sweepLinks, insertQueued, insertLinks]
    rfl

/-! ## The first-scan invariant -/

/-- Invariant of the first scan after processing the entries of `done`:
present files are exactly the reconciliations of processed entries, and
present files collide on neither inode nor path. -/
def Inv1 (flag : Bool) (done : List FsEntry) (files : List SFile) : Prop :=
  (∀ f ∈ files, f.present = true → ∃ e ∈ done, Matches f e) ∧
  (∀ e ∈ done, ∃ f ∈ files, f.present = true ∧ Matches f e) ∧
  (files.filter (fun f => f.present)).Pairwise
    (fun a b => a.inode ≠ b.inode ∧ a.sub ≠ b.sub) ∧
  (flag = true → ∀ f ∈ files, f.present = false → f.without_inode = true)

theorem metadataMatch_parts (f : SFile) (st : Stat) (h : metadataMatch f st = true) :
    f.size = st.st_size ∧ f.mtime_sec = st.st_mtime ∧
      (f.mtime_nsec = st.st_nsec ∨ f.mtime_nsec = STAT_NSEC_INVALID) := by
  simp only [metadataMatch, Bool.and_eq_true, Bool.or_eq_true, beq_iff_eq] at h
  exact ⟨h.1.1, h.1.2, h.2⟩

theorem metadataMatch_upgrade (f : SFile) (st : Stat) (h : metadataMatch f st = true) :
    metadataMatch (nsecUpgrade f st).1 st = true ∧ noUpg (nsecUpgrade f st).1 st := by
  obtain ⟨h1, h2, h3⟩ := metadataMatch_parts f st h
  by_cases hc : (f.mtime_nsec == STAT_NSEC_INVALID && st.st_nsec != STAT_NSEC_INVALID) = true
  · simp only [Bool.and_eq_true, bne_iff_ne, beq_iff_eq] at hc
    constructor
    · simp [nsecUpgrade, hc.1, hc.2, metadataMatch, h1, h2]
    · intro hinv
      simp only [nsecUpgrade, hc.1, hc.2] at hinv ⊢
      rw [if_pos (by simp [hc.1, hc.2])] at hinv
      simp at hinv
      exact absurd hinv hc.2
  · have hc' : nsecUpgrade f st = (f, false) := by
      simp only [nsecUpgrade]
      rw [if_neg hc]
    rw [hc']
    simp only [Bool.and_eq_true, bne_iff_ne, beq_iff_eq, not_and, not_not] at hc
    refine ⟨h, ?_⟩
    intro hinv
    exact hc hinv

theorem Matches_newFileOf (e : FsEntry) : Matches (newFileOf e.sub e.st) e := by
  refine ⟨rfl, rfl, rfl, ?_, ?_⟩
  · simp [metadataMatch, newFileOf]
  · intro h
    simpa [newFileOf] using h

theorem Matches_presentFile (g : SFile) (e : FsEntry)
    (hsub : g.sub = e.sub) (hino : g.inode = e.st.st_ino) (hwo : g.without_inode = false)
    (hmeta : metadataMatch g e.st = true) :
    Matches (presentFile g e.st) e := by
  obtain ⟨hm, hn⟩ := metadataMatch_upgrade g e.st hmeta
  have hfields : (nsecUpgrade g e.st).1.sub = g.sub ∧ (nsecUpgrade g e.st).1.inode = g.inode ∧
      (nsecUpgrade g e.st).1.without_inode = g.without_inode := by
    unfold nsecUpgrade
    by_cases hc : (g.mtime_nsec == STAT_NSEC_INVALID && e.st.st_nsec != STAT_NSEC_INVALID) = true
    · rw [if_pos hc]
      exact ⟨rfl, rfl, rfl⟩
    · rw [if_neg hc]
      exact ⟨rfl, rfl, rfl⟩
  refine ⟨?_, ?_, ?_, hm, hn⟩
  · show (nsecUpgrade g e.st).1.inode = e.st.st_ino
    rw [hfields.2.1, hino]
  · show (nsecUpgrade g e.st).1.without_inode = false
    rw [hfields.2.2, hwo]
  · show (nsecUpgrade g e.st).1.sub = e.sub
    rw [hfields.1, hsub]

theorem Matches_restoredFile (g : SFile) (e : FsEntry)
    (hsub : g.sub = e.sub) (hwo : g.without_inode = false)
    (hmeta : metadataMatch g e.st = true) :
    Matches (restoredFile g e.st) e := by
  obtain ⟨hm, hn⟩ := metadataMatch_upgrade g e.st hmeta
  have hfields : (nsecUpgrade g e.st).1.sub = g.sub ∧
      (nsecUpgrade g e.st).1.without_inode = g.without_inode := by
    unfold nsecUpgrade
    by_cases hc : (g.mtime_nsec == STAT_NSEC_INVALID && e.st.st_nsec != STAT_NSEC_INVALID) = true
    · rw [if_pos hc]
      exact ⟨rfl, rfl⟩
    · rw [if_neg hc]
      exact ⟨rfl, rfl⟩
  refine ⟨rfl, ?_, ?_, hm, hn⟩
  · show (nsecUpgrade g e.st).1.without_inode = false
    rw [hfields.2, hwo]
  · show (nsecUpgrade g e.st).1.sub = e.sub
    rw [hfields.1, hsub]

theorem Matches_movedFile (g : SFile) (e : FsEntry)
    (hino : g.inode = e.st.st_ino) (hwo : g.without_inode = false)
    (hmeta : metadataMatch g e.st = true) :
    Matches ({ presentFile g e.st with sub := e.sub }) e := by
  obtain ⟨hm, hn⟩ := metadataMatch_upgrade g e.st hmeta
  have hfields : (nsecUpgrade g e.st).1.inode = g.inode ∧
      (nsecUpgrade g e.st).1.without_inode = g.without_inode := by
    unfold nsecUpgrade
    by_cases hc : (g.mtime_nsec == STAT_NSEC_INVALID && e.st.st_nsec != STAT_NSEC_INVALID) = true
    · rw [if_pos hc]
      exact ⟨rfl, rfl⟩
    · rw [if_neg hc]
      exact ⟨rfl, rfl⟩
  refine ⟨?_, ?_, rfl, ?_, ?_⟩
  · show (nsecUpgrade g e.st).1.inode = e.st.st_ino
    rw [hfields.1, hino]
  · show (nsecUpgrade g e.st).1.without_inode = false
    rw [hfields.2, hwo]
  · exact hm
  · exact hn

theorem inv1_fresh (flag : Bool) (done : List FsEntry) (files : List SFile) (e : FsEntry)
    (hinv : Inv1 flag done files)
    (hfs : e.sub ∉ done.map (fun x => x.sub))
    (hfi : e.st.st_ino ∉ done.map (fun x => x.st.st_ino)) :
    ∀ g ∈ files, g.present = true → g.inode ≠ e.st.st_ino ∧ g.sub ≠ e.sub := by
  obtain ⟨h1, -, -, -⟩ := hinv
  intro g hg hp
  obtain ⟨e', he', hm⟩ := h1 g hg hp
  constructor
  · rw [hm.1]
    intro heq
    exact hfi (heq ▸ List.mem_map_of_mem _ he')
  · rw [hm.2.2.1]
    intro heq
    exact hfs (heq ▸ List.mem_map_of_mem _ he')

theorem pairRelSymm :
    Symmetric (fun (a b : SFile) => a.inode ≠ b.inode ∧ a.sub ≠ b.sub) := by
  intro a b h
  exact ⟨fun hh => h.1 hh.symm, fun hh => h.2 hh.symm⟩

theorem markInv1 (flag : Bool) (done : List FsEntry) (files : List SFile)
    (e : FsEntry) (j : Nat) (f0 F : SFile)
    (hget : files[j]? = some f0) (hp0 : f0.present = false) (hpF : F.present = true)
    (hmF : Matches F e)
    (hfresh : ∀ g ∈ files, g.present = true → g.inode ≠ e.st.st_ino ∧ g.sub ≠ e.sub)
    (hinv : Inv1 flag done files) :
    Inv1 flag (done ++ [e]) (files.set j F) := by
  obtain ⟨h1, h2, h3, h4⟩ := hinv
  have hjlt : j < files.length := by
    rcases List.getElem?_eq_some.mp hget with ⟨hl, -⟩
    exact hl
  refine ⟨?_, ?_, ?_, ?_⟩
  · intro f'' hf'' hp''
    rcases List.mem_or_eq_of_mem_set hf'' with hmem | rfl
    · obtain ⟨e', he', hm'⟩ := h1 f'' hmem hp''
      exact ⟨e', List.mem_append_left _ he', hm'⟩
    · exact ⟨e, List.mem_append_right _ (by simp), hmF⟩
  · intro e' he'
    rcases List.mem_append.mp he' with hd | he
    · obtain ⟨g, hg, hpg, hmg⟩ := h2 e' hd
      have hgne : g ≠ f0 := fun h => by rw [h, hp0] at hpg; cases hpg
      exact ⟨g, mem_set_of_ne files j F g f0 hg hget hgne, hpg, hmg⟩
    · have he'' : e' = e := by simpa using he
      subst he''
      exact ⟨F, List.mem_iff_getElem?.mpr ⟨j, getElem?_set_self_of_lt _ _ _ hjlt⟩, hpF, hmF⟩
  · have hperm := filter_set_mark (fun f => f.present) files j f0 F hget hp0 hpF
    rw [hperm.pairwise_iff
      (fun hab => ⟨fun hh => hab.1 hh.symm, fun hh => hab.2 hh.symm⟩), List.pairwise_cons]
    refine ⟨?_, h3⟩
    intro g hg
    have hgm := List.mem_filter.mp hg
    have hfg := hfresh g hgm.1 (by simpa using hgm.2)
    constructor
    · rw [hmF.1]
      intro hh
      exact hfg.1 hh.symm
    · rw [hmF.2.2.1]
      intro hh
      exact hfg.2 hh.symm
  · intro hfl f'' hf'' hp''
    rcases List.mem_or_eq_of_mem_set hf'' with hmem | rfl
    · exact h4 hfl f'' hmem hp''
    · rw [hpF] at hp''
      cases hp''

theorem appendInv1 (flag : Bool) (done : List FsEntry) (files : List SFile)
    (e : FsEntry) (nf : SFile)
    (hpnf : nf.present = true) (hmnf : Matches nf e)
    (hfresh : ∀ g ∈ files, g.present = true → g.inode ≠ e.st.st_ino ∧ g.sub ≠ e.sub)
    (hinv : Inv1 flag done files) :
    Inv1 flag (done ++ [e]) (files ++ [nf]) := by
  obtain ⟨h1, h2, h3, h4⟩ := hinv
  refine ⟨?_, ?_, ?_, ?_⟩
  · intro f'' hf'' hp''
    rcases List.mem_append.mp hf'' with hmem | hnf
    · obtain ⟨e', he', hm'⟩ := h1 f'' hmem hp''
      exact ⟨e', List.mem_append_left _ he', hm'⟩
    · have hfe : f'' = nf := by simpa using hnf
      subst hfe
      exact ⟨e, List.mem_append_right _ (by simp), hmnf⟩
  · intro e' he'
    rcases List.mem_append.mp he' with hd | he
    · obtain ⟨g, hg, hpg, hmg⟩ := h2 e' hd
      exact ⟨g, List.mem_append_left _ hg, hpg, hmg⟩
    · have he'' : e' = e := by simpa using he
      subst he''
      exact ⟨nf, List.mem_append_right _ (by simp), hpnf, hmnf⟩
  · rw [List.filter_append]
    have hnfl : List.filter (fun f => f.present) [nf] = [nf] := by simp [hpnf]
    rw [hnfl, List.pairwise_append]
    refine ⟨h3, by simp, ?_⟩
    intro a ha b hb
    have hb' : b = nf := by simpa using hb
    subst hb'
    have ham := List.mem_filter.mp ha
    have hfa := hfresh a ham.1 (by simpa using ham.2)
    constructor
    · rw [hmnf.1]
      exact hfa.1
    · rw [hmnf.2.2.1]
      exact hfa.2
  · intro hfl f'' hf'' hp''
    rcases List.mem_append.mp hf'' with hmem | hnf
    · exact h4 hfl f'' hmem hp''
    · have hfe : f'' = nf := by simpa using hnf
      subst hfe
      rw [hpnf] at hp''
      cases hp''

theorem eraseAppendInv1 (flag : Bool) (done : List FsEntry) (files : List SFile)
    (e : FsEntry) (j : Nat) (f0 nf : SFile)
    (hget : files[j]? = some f0) (hp0 : f0.present = false)
    (hpnf : nf.present = true) (hmnf : Matches nf e)
    (hfresh : ∀ g ∈ files, g.present = true → g.inode ≠ e.st.st_ino ∧ g.sub ≠ e.sub)
    (hinv : Inv1 flag done files) :
    Inv1 flag (done ++ [e]) ((files.eraseIdx j) ++ [nf]) := by
  obtain ⟨h1, h2, h3, h4⟩ := hinv
  refine ⟨?_, ?_, ?_, ?_⟩
  · intro f'' hf'' hp''
    rcases List.mem_append.mp hf'' with hmem | hnf
    · obtain ⟨e', he', hm'⟩ := h1 f'' (mem_of_mem_eraseIdx files j f'' hmem) hp''
      exact ⟨e', List.mem_append_left _ he', hm'⟩
    · have hfe : f'' = nf := by simpa using hnf
      subst hfe
      exact ⟨e, List.mem_append_right _ (by simp), hmnf⟩
  · intro e' he'
    rcases List.mem_append.mp he' with hd | he
    · obtain ⟨g, hg, hpg, hmg⟩ := h2 e' hd
      have hgne : g ≠ f0 := fun h => by rw [h, hp0] at hpg; cases hpg
      exact ⟨g, List.mem_append_left _ (mem_eraseIdx_of_ne files j g f0 hg hget hgne),
        hpg, hmg⟩
    · have he'' : e' = e := by simpa using he
      subst he''
      exact ⟨nf, List.mem_append_right _ (by simp), hpnf, hmnf⟩
  · rw [List.filter_append]
    rw [filter_eraseIdx_not (fun f => f.present) files j f0 hget hp0]
    have hnfl : List.filter (fun f => f.present) [nf] = [nf] := by simp [hpnf]
    rw [hnfl, List.pairwise_append]
    refine ⟨h3, by simp, ?_⟩
    intro a ha b hb
    have hb' : b = nf := by simpa using hb
    subst hb'
    have ham := List.mem_filter.mp ha
    have hfa := hfresh a ham.1 (by simpa using ham.2)
    constructor
    · rw [hmnf.1]
      exact hfa.1
    · rw [hmnf.2.2.1]
      exact hfa.2
  · intro hfl f'' hf'' hp''
    rcases List.mem_append.mp hf'' with hmem | hnf
    · exact h4 hfl f'' (mem_of_mem_eraseIdx files j f'' hmem) hp''
    · have hfe : f'' = nf := by simpa using hnf
      subst hfe
      rw [hpnf] at hp''
      cases hp''

theorem unmarkInv1 (flag : Bool) (done : List FsEntry) (files : List SFile)
    (j : Nat) (f0 F' : SFile)
    (hget : files[j]? = some f0) (hp0 : f0.present = false)
    (hpF : F'.present = false) (hwF : flag = true → F'.without_inode = true)
    (hinv : Inv1 flag done files) :
    Inv1 flag done (files.set j F') := by
  obtain ⟨h1, h2, h3, h4⟩ := hinv
  refine ⟨?_, ?_, ?_, ?_⟩
  · intro f'' hf'' hp''
    rcases List.mem_or_eq_of_mem_set hf'' with hmem | rfl
    · exact h1 f'' hmem hp''
    · rw [hpF] at hp''
      cases hp''
  · intro e' he'
    obtain ⟨g, hg, hpg, hmg⟩ := h2 e' he'
    have hgne : g ≠ f0 := fun h => by rw [h, hp0] at hpg; cases hpg
    exact ⟨g, mem_set_of_ne files j F' g f0 hg hget hgne, hpg, hmg⟩
  · rw [filter_set_unmark (fun f => f.present) files j f0 F' hget hp0 hpF]
    exact h3
  · intro hfl f'' hf'' hp''
    rcases List.mem_or_eq_of_mem_set hf'' with hmem | rfl
    · exact h4 hfl f'' hmem hp''
    · exact hwF hfl

theorem scan1_path2 (pol : Policy) (d : Disk) (cnt : Counters) (needw : Bool)
    (e : FsEntry) (flag : Bool) (done : List FsEntry) (j : Nat) (f0 f : SFile) (r : ScanRes)
    (hflag : d.has_not_persistent_inodes = flag)
    (hinv : Inv1 flag done d.files)
    (hfresh : ∀ g ∈ d.files, g.present = true → g.inode ≠ e.st.st_ino ∧ g.sub ≠ e.sub)
    (hget : d.files[j]? = some f0) (hp0 : f0.present = false)
    (hfp : f.present = false) (hfsub : f.sub = e.sub) (hfwo : f.without_inode = false)
    (hfino : flag = true → f.inode = e.st.st_ino)
    (hr : scan_file_path2 pol d cnt needw e.sub e.st j f = .ok r) :
    Inv1 flag (done ++ [e]) r.disk.files ∧ r.disk.links = d.links ∧
      r.disk.has_not_persistent_inodes = flag ∧ r.qlink = none := by
  by_cases hmeta : metadataMatch f e.st = true
  · rw [scan_file_path2_match pol d cnt needw e.sub e.st j f hfp hmeta] at hr
    by_cases hnp : d.has_not_persistent_inodes = false
    · rw [if_pos hnp] at hr
      have hreq := Except.ok.inj hr
      subst hreq
      refine ⟨?_, rfl, hflag, rfl⟩
      exact markInv1 flag done d.files e j f0 (restoredFile f e.st) hget hp0 rfl
        (Matches_restoredFile f e hfsub hfwo hmeta) hfresh hinv
    · rw [if_neg hnp] at hr
      have hreq := Except.ok.inj hr
      subst hreq
      have hflag' : flag = true := by
        rw [← hflag]
        cases hcc : d.has_not_persistent_inodes
        · exact absurd hcc hnp
        · rfl
      refine ⟨?_, rfl, hflag, rfl⟩
      exact markInv1 flag done d.files e j f0 (presentFile f e.st) hget hp0 rfl
        (Matches_presentFile f e hfsub (hfino hflag') hfwo hmeta) hfresh hinv
  · have hmeta' : metadataMatch f e.st = false := by simpa using hmeta
    by_cases hg : (f.size != 0 && e.st.st_size == 0 && !pol.force_zero) = true
    · have heq : scan_file_path2 pol d cnt needw e.sub e.st j f = .error .zeroSize := by
        simp [scan_file_path2, hfp, hmeta', hg]
      rw [heq] at hr
      cases hr
    · have hg' : (f.size != 0 && e.st.st_size == 0 && !pol.force_zero) = false := by
        simpa using hg
      cases hrb : removeBlocks pol.clear_undeterminate_hash
          ⟨d.blockarr, d.first_free_block⟩ f.blocks with
      | none =>
        have heq : scan_file_path2 pol d cnt needw e.sub e.st j f = .error .badBlockState := by
          simp [scan_file_path2, hfp, hmeta', hg', hrb]
        rw [heq] at hr
        cases hr
      | some m =>
        have heq : scan_file_path2 pol d cnt needw e.sub e.st j f =
            .ok ⟨⟨(d.files.eraseIdx j) ++ [newFileOf e.sub e.st], d.links, m.arr, m.ffb,
                d.has_not_persistent_inodes⟩,
              { cnt with change := cnt.change + 1 }, true, some e.sub, none⟩ := by
          simp [scan_file_path2, hfp, hmeta', hg', hrb, scan_file_new]
        rw [heq] at hr
        have hreq := Except.ok.inj hr
        subst hreq
        refine ⟨?_, rfl, hflag, rfl⟩
        exact eraseAppendInv1 flag done d.files e j f0 (newFileOf e.sub e.st) hget hp0 rfl
          (Matches_newFileOf e) hfresh hinv

theorem scan1_path (pol : Policy) (d : Disk) (cnt : Counters) (needw : Bool)
    (e : FsEntry) (flag : Bool) (done : List FsEntry) (r : ScanRes)
    (hflag : d.has_not_persistent_inodes = flag)
    (hinv : Inv1 flag done d.files)
    (hfresh : ∀ g ∈ d.files, g.present = true → g.inode ≠ e.st.st_ino ∧ g.sub ≠ e.sub)
    (hr : scan_file_path pol d cnt needw e.sub e.st = .ok r) :
    Inv1 flag (done ++ [e]) r.disk.files ∧ r.disk.links = d.links ∧
      r.disk.has_not_persistent_inodes = flag ∧ r.qlink = none := by
  cases hfind : findPath d.files e.sub with
  | none =>
    have heq : scan_file_path pol d cnt needw e.sub e.st =
        .ok (scan_file_new d { cnt with insert := cnt.insert + 1 } needw e.sub e.st) := by
      simp [scan_file_path, hfind]
    rw [heq] at hr
    have hreq := Except.ok.inj hr
    subst hreq
    refine ⟨?_, rfl, hflag, rfl⟩
    exact appendInv1 flag done d.files e (newFileOf e.sub e.st) rfl (Matches_newFileOf e)
      hfresh hinv
  | some j =>
    obtain ⟨f0, hget, hpred⟩ := findIdxO_some _ d.files j hfind
    have hsub0 : f0.sub = e.sub := by simpa using hpred
    have hp0 : f0.present = false := by
      cases hpp : f0.present
      · rfl
      · exact absurd hsub0 ((hfresh f0 (List.mem_iff_getElem?.mpr ⟨j, hget⟩) hpp).2)
    by_cases hwo0 : f0.without_inode = true
    · have heq : scan_file_path pol d cnt needw e.sub e.st =
          scan_file_path2 pol d cnt needw e.sub e.st j
            { f0 with inode := e.st.st_ino, without_inode := false } := by
        simp [scan_file_path, hfind, hget, hwo0]
      rw [heq] at hr
      exact scan1_path2 pol d cnt needw e flag done j f0
        { f0 with inode := e.st.st_ino, without_inode := false } r hflag hinv hfresh hget hp0
        hp0 hsub0 rfl (fun _ => rfl) hr
    · have hwo0' : f0.without_inode = false := by simpa using hwo0
      by_cases hie : f0.inode = e.st.st_ino
      · have heq : scan_file_path pol d cnt needw e.sub e.st =
            .error .pathUnexpectedInode := by
          simp [scan_file_path, hfind, hget, hwo0', hie]
        rw [heq] at hr
        cases hr
      · have heq : scan_file_path pol d cnt needw e.sub e.st =
            scan_file_path2 pol d cnt needw e.sub e.st j f0 := by
          simp [scan_file_path, hfind, hget, hwo0', hie]
        rw [heq] at hr
        have hino' : flag = true → f0.inode = e.st.st_ino := by
          intro hft
          obtain ⟨-, -, -, h4⟩ := hinv
          have hcw := h4 hft f0 (List.mem_iff_getElem?.mpr ⟨j, hget⟩) hp0
          rw [hwo0'] at hcw
          cases hcw
        exact scan1_path2 pol d cnt needw e flag done j f0 f0 r hflag hinv hfresh hget hp0
          hp0 hsub0 hwo0' hino' hr

theorem scan1_step (pol : Policy) (d : Disk) (cnt : Counters) (needw : Bool)
    (e : FsEntry) (flag : Bool) (done : List FsEntry) (r : ScanRes)
    (hflag : d.has_not_persistent_inodes = flag)
    (hinv : Inv1 flag done d.files)
    (hfresh : ∀ g ∈ d.files, g.present = true → g.inode ≠ e.st.st_ino ∧ g.sub ≠ e.sub)
    (hr : scan_file pol d cnt needw e.sub e.st = .ok r) :
    Inv1 flag (done ++ [e]) r.disk.files ∧ r.disk.links = d.links ∧
      r.disk.has_not_persistent_inodes = flag ∧ r.qlink = none := by
  cases hfi : findInode d.files e.st.st_ino with
  | none =>
    have heq : scan_file pol d cnt needw e.sub e.st =
        scan_file_path pol d cnt needw e.sub e.st := by
      simp [scan_file, hfi]
    rw [heq] at hr
    exact scan1_path pol d cnt needw e flag done r hflag hinv hfresh hr
  | some i =>
    obtain ⟨f0, hget, hpred⟩ := findIdxO_some _ d.files i hfi
    have hmem : f0 ∈ d.files := List.mem_iff_getElem?.mpr ⟨i, hget⟩
    simp only [Bool.and_eq_true, Bool.not_eq_true', beq_iff_eq] at hpred
    have hp0 : f0.present = false := by
      cases hpp : f0.present
      · rfl
      · exact absurd hpred.2 ((hfresh f0 hmem hpp).1)
    by_cases hmeta : metadataMatch f0 e.st = true
    · have hss : (nsecUpgrade f0 e.st).1.sub = f0.sub := by
        unfold nsecUpgrade
        by_cases hc : (f0.mtime_nsec == STAT_NSEC_INVALID &&
            e.st.st_nsec != STAT_NSEC_INVALID) = true
        · rw [if_pos hc]
        · rw [if_neg hc]
      by_cases hmv : f0.sub = e.sub
      · have hcond : (({ (nsecUpgrade f0 e.st).1 with present := true } : SFile).sub
            != e.sub) = false := by
          show ((nsecUpgrade f0 e.st).1.sub != e.sub) = false
          rw [hss, hmv]
          simp
        have heq : scan_file pol d cnt needw e.sub e.st =
            .ok ⟨{ d with files := d.files.set i (presentFile f0 e.st) },
              { cnt with equal := cnt.equal + 1 }, needw || (nsecUpgrade f0 e.st).2,
              none, none⟩ := by
          simp [scan_file, hfi, hget, hmeta, hp0, hcond, presentFile]
        rw [heq] at hr
        have hreq := Except.ok.inj hr
        subst hreq
        refine ⟨?_, rfl, hflag, rfl⟩
        exact markInv1 flag done d.files e i f0 (presentFile f0 e.st) hget hp0 rfl
          (Matches_presentFile f0 e hmv hpred.2 hpred.1 hmeta) hfresh hinv
      · have hcond : (({ (nsecUpgrade f0 e.st).1 with present := true } : SFile).sub
            != e.sub) = true := by
          show ((nsecUpgrade f0 e.st).1.sub != e.sub) = true
          rw [hss]
          simpa using hmv
        have heq : scan_file pol d cnt needw e.sub e.st =
            .ok ⟨{ d with files := d.files.set i ({ presentFile f0 e.st with sub := e.sub }) },
              { cnt with move := cnt.move + 1 }, true, none, none⟩ := by
          simp [scan_file, hfi, hget, hmeta, hp0, hcond, presentFile]
        rw [heq] at hr
        have hreq := Except.ok.inj hr
        subst hreq
        refine ⟨?_, rfl, hflag, rfl⟩
        exact markInv1 flag done d.files e i f0 ({ presentFile f0 e.st with sub := e.sub })
          hget hp0 rfl (Matches_movedFile f0 e hpred.2 hpred.1 hmeta) hfresh hinv
    · have hmeta' : metadataMatch f0 e.st = false := by simpa using hmeta
      have heq : scan_file pol d cnt needw e.sub e.st =
          scan_file_path pol
            { d with files := d.files.set i ({ f0 with inode := 0, without_inode := true }) }
            cnt needw e.sub e.st := by
        simp [scan_file, hfi, hget, hmeta', hp0]
      rw [heq] at hr
      have hinv' : Inv1 flag done
          (d.files.set i ({ f0 with inode := 0, without_inode := true })) :=
        unmarkInv1 flag done d.files i f0 ({ f0 with inode := 0, without_inode := true })
          hget hp0 hp0 (fun _ => rfl) hinv
      have hfresh' : ∀ g ∈ d.files.set i ({ f0 with inode := 0, without_inode := true }),
          g.present = true → g.inode ≠ e.st.st_ino ∧ g.sub ≠ e.sub := by
        intro g hgm hgp
        rcases List.mem_or_eq_of_mem_set hgm with hmm | rfl
        · exact hfresh g hmm hgp
        · rw [show ({ f0 with inode := 0, without_inode := true } : SFile).present
              = f0.present from rfl, hp0] at hgp
          cases hgp
      exact scan1_path pol
        { d with files := d.files.set i ({ f0 with inode := 0, without_inode := true }) }
        cnt needw e flag done r hflag hinv' hfresh' hr

theorem nodup_mid {α β : Type} (g : α → β) (done : List α) (e : α) (rest : List α)
    (h : ((done ++ e :: rest).map g).Nodup) : g e ∉ List.map g done := by
  rw [List.map_append, List.nodup_append] at h
  intro hmem
  exact h.2.2 hmem (by simp)

theorem walk1 (pol : Policy) :
    ∀ (rest done : List FsEntry) (d : Disk) (cnt : Counters) (needw : Bool)
      (qf : List String) (ql : List SLink)
      (r : Disk × Counters × Bool × List String × List SLink),
      ((done ++ rest).map (fun x => x.sub)).Nodup →
      ((done ++ rest).map (fun x => x.st.st_ino)).Nodup →
      Inv1 d.has_not_persistent_inodes done d.files →
      scan_walk pol d cnt needw qf ql rest = .ok r →
      Inv1 d.has_not_persistent_inodes (done ++ rest) r.1.files ∧
        r.1.links = d.links ∧
        r.1.has_not_persistent_inodes = d.has_not_persistent_inodes ∧
        r.2.2.2.2 = ql := by
  intro rest
  induction rest with
  | nil =>
    intro done d cnt needw qf ql r _ _ hinv hw
    have hreq := Except.ok.inj hw
    subst hreq
    refine ⟨?_, rfl, rfl, rfl⟩
    rw [List.append_nil]
    exact hinv
  | cons e rest ih =>
    intro done d cnt needw qf ql r hns hni hinv hw
    cases hsf : scan_file pol d cnt needw e.sub e.st with
    | error x =>
      simp only [scan_walk] at hw
      rw [hsf] at hw
      exact Except.noConfusion hw
    | ok r1 =>
      simp only [scan_walk] at hw
      rw [hsf] at hw
      have hw' : scan_walk pol r1.disk r1.cnt r1.needw (qf ++ r1.qfile.toList)
          (ql ++ r1.qlink.toList) rest = .ok r := hw
      have hfresh := inv1_fresh d.has_not_persistent_inodes done d.files e hinv
        (nodup_mid (fun x => x.sub) done e rest hns)
        (nodup_mid (fun x => x.st.st_ino) done e rest hni)
      obtain ⟨hinv', hlinks1, hflag1, hql1⟩ :=
        scan1_step pol d cnt needw e d.has_not_persistent_inodes done r1 rfl hinv hfresh hsf
      have hns' : ((done ++ [e] ++ rest).map (fun x => x.sub)).Nodup := by
        rw [List.append_assoc]
        exact hns
      have hni' : ((done ++ [e] ++ rest).map (fun x => x.st.st_ino)).Nodup := by
        rw [List.append_assoc]
        exact hni
      have hinv'' : Inv1 r1.disk.has_not_persistent_inodes (done ++ [e]) r1.disk.files := by
        rw [hflag1]
        exact hinv'
      obtain ⟨hI, hL, hF, hQ⟩ := ih (done ++ [e]) r1.disk r1.cnt r1.needw
        (qf ++ r1.qfile.toList) (ql ++ r1.qlink.toList) r hns' hni' hinv'' hw'
      rw [List.append_assoc] at hI
      rw [hflag1] at hI
      refine ⟨hI, ?_, ?_, ?_⟩
      · rw [hL, hlinks1]
      · rw [hF, hflag1]
      · rw [hQ, hql1]
        simp

theorem sweepFiles_filter (clear : Bool) :
    ∀ (files : List SFile) (m : BlockMap) (res : List SFile × BlockMap × Nat × Bool),
      sweepFiles clear m files = some res →
      res.1 = files.filter (fun f => f.present) := by
  intro files
  induction files with
  | nil =>
    intro m res h
    have hreq := Option.some.inj h
    subst hreq
    rfl
  | cons f rest ih =>
    intro m res h
    simp only [sweepFiles] at h
    by_cases hp : f.present = true
    · rw [if_pos hp] at h
      cases hrec : sweepFiles clear m rest with
      | none =>
        rw [hrec] at h
        exact Option.noConfusion h
      | some r' =>
        obtain ⟨fs, m', n, w⟩ := r'
        rw [hrec] at h
        have hreq := Option.some.inj h
        subst hreq
        simp only [List.filter_cons, hp, if_true]
        exact congrArg (List.cons f) (ih m (fs, m', n, w) hrec)
    · have hp' : f.present = false := by simpa using hp
      rw [if_neg hp] at h
      cases hrb : removeBlocks clear m f.blocks with
      | none =>
        rw [hrb] at h
        exact Option.noConfusion h
      | some m1 =>
        rw [hrb] at h
        have h2 : (match sweepFiles clear m1 rest with
            | none => none
            | some (fs, m', n, _) => some (fs, m', n + 1, true)) = some res := h
        cases hrec : sweepFiles clear m1 rest with
        | none =>
          rw [hrec] at h2
          exact Option.noConfusion h2
        | some r' =>
          obtain ⟨fs, m', n, w⟩ := r'
          rw [hrec] at h2
          have hreq := Option.some.inj h2
          subst hreq
          simp only [List.filter_cons, hp', Bool.false_eq_true, if_false]
          exact ih m1 (fs, m', n, w) hrec

theorem sweepLinks_nilres :
    ∀ links : List SLink, (∀ l ∈ links, l.present = false) → (sweepLinks links).1 = [] := by
  intro links
  induction links with
  | nil => intro _; rfl
  | cons l rest ih =>
    intro h
    have hl : l.present = false := h l (by simp)
    simp only [sweepLinks, hl, Bool.false_eq_true, if_false]
    exact ih (fun g hg => h g (by simp [hg]))

/-- The reconciliation-relevant fields of a file: everything except the
allocated blocks. -/
def fileMeta (f : SFile) : String × Nat × Nat × Int × Nat × Bool × Bool :=
  (f.sub, f.size, f.mtime_sec, f.mtime_nsec, f.inode, f.present, f.without_inode)

theorem insertQueued_meta (clear : Bool) (bsz : Nat) :
    ∀ (q : List String) (files : List SFile) (m : BlockMap) (w : Bool),
      ((insertQueued clear bsz files m w q).1).map fileMeta = files.map fileMeta := by
  intro q
  induction q with
  | nil => intro files m w; rfl
  | cons s rest ih =>
    intro files m w
    cases hfp : findPath files s with
    | none =>
      simp only [insertQueued, hfp]
      exact ih files m w
    | some j =>
      obtain ⟨f', hget, -⟩ := findIdxO_some _ files j hfp
      simp only [insertQueued, hfp, hget, Option.getD_some]
      rw [ih]
      exact map_set_self fileMeta files j f' _ hget rfl

theorem fileMeta_fields (f g : SFile) (h : fileMeta f = fileMeta g) :
    f.sub = g.sub ∧ f.size = g.size ∧ f.mtime_sec = g.mtime_sec ∧
      f.mtime_nsec = g.mtime_nsec ∧ f.inode = g.inode ∧ f.present = g.present ∧
      f.without_inode = g.without_inode := by
  simpa [fileMeta, Prod.ext_iff] using h

theorem Matches_of_meta (f g : SFile) (e : FsEntry) (h : fileMeta f = fileMeta g)
    (hm : Matches g e) : Matches f e := by
  obtain ⟨h1, h2, h3, h4, h5, h6, h7⟩ := fileMeta_fields f g h
  obtain ⟨hino, hwo, hsub, hmeta, hnu⟩ := hm
  refine ⟨by rw [h5, hino], by rw [h7, hwo], by rw [h1, hsub], ?_, ?_⟩
  · rw [show metadataMatch f e.st = metadataMatch g e.st from by
      simp [metadataMatch, h2, h3, h4]]
    exact hmeta
  · intro hx
    exact hnu (by rw [← h4]; exact hx)

theorem mem_map_eq_exists {α β : Type} (g : α → β) (l1 l2 : List α)
    (h : l1.map g = l2.map g) (a : α) (ha : a ∈ l1) : ∃ b ∈ l2, g b = g a := by
  have hmm : g a ∈ l2.map g := by
    rw [← h]
    exact List.mem_map_of_mem g ha
  obtain ⟨b, hb, hgb⟩ := List.mem_map.mp hmm
  exact ⟨b, hb, hgb⟩

theorem GoodCat_of_meta (fs : List FsEntry) (files1 files2 : List SFile)
    (h : files2.map fileMeta = files1.map fileMeta)
    (hg : GoodCat fs files1) : GoodCat fs files2 := by
  obtain ⟨h1, h2, h3, h4⟩ := hg
  refine ⟨?_, ?_, ?_, ?_⟩
  · intro f hf
    obtain ⟨b, hb, hgb⟩ := mem_map_eq_exists fileMeta files2 files1 h f hf
    obtain ⟨e, he, hme⟩ := h1 b hb
    exact ⟨e, he, Matches_of_meta f b e hgb.symm hme⟩
  · intro e he
    obtain ⟨f, hf, hme⟩ := h2 e he
    obtain ⟨b, hb, hgb⟩ := mem_map_eq_exists fileMeta files1 files2 h.symm f hf
    exact ⟨b, hb, Matches_of_meta b f e hgb hme⟩
  · have hmap : files2.map (fun f => f.inode) = files1.map (fun f => f.inode) := by
      have e2 : files2.map (fun f => f.inode) =
          (files2.map fileMeta).map (fun t => t.2.2.2.2.1) := by
        rw [List.map_map]
        rfl
      have e1 : files1.map (fun f => f.inode) =
          (files1.map fileMeta).map (fun t => t.2.2.2.2.1) := by
        rw [List.map_map]
        rfl
      rw [e2, e1, h]
    rw [hmap]
    exact h3
  · have hmap : files2.map (fun f => f.sub) = files1.map (fun f => f.sub) := by
      have e2 : files2.map (fun f => f.sub) =
          (files2.map fileMeta).map (fun t => t.1) := by
        rw [List.map_map]
        rfl
      have e1 : files1.map (fun f => f.sub) =
          (files1.map fileMeta).map (fun t => t.1) := by
        rw [List.map_map]
        rfl
      rw [e2, e1, h]
    rw [hmap]
    exact h4

theorem Matches_clr (g : SFile) (e : FsEntry) (h : Matches g e) :
    Matches ({ g with present := false }) e := h

theorem GoodCat_clear (fs : List FsEntry) (files : List SFile) (hg : GoodCat fs files) :
    GoodCat fs (files.map (fun f => { f with present := false })) := by
  obtain ⟨h1, h2, h3, h4⟩ := hg
  refine ⟨?_, ?_, ?_, ?_⟩
  · intro f hf
    obtain ⟨g, hgm, rfl⟩ := List.mem_map.mp hf
    obtain ⟨e, he, hme⟩ := h1 g hgm
    exact ⟨e, he, Matches_clr g e hme⟩
  · intro e he
    obtain ⟨f, hf, hme⟩ := h2 e he
    exact ⟨{ f with present := false }, List.mem_map_of_mem _ hf, Matches_clr f e hme⟩
  · rw [List.map_map]
    exact h3
  · rw [List.map_map]
    exact h4

theorem nodup_map_of_pairwise {β : Type} (g : SFile → β) (l : List SFile)
    (h : l.Pairwise (fun a b => g a ≠ g b)) : (l.map g).Nodup :=
  List.Pairwise.map g (fun a b hab => hab) h

theorem scan1_core (pol : Policy) (bsz : Nat) (d : Disk) (fs : List FsEntry)
    (r1 : ScanDiskRes)
    (hsub : (fs.map (fun e => e.sub)).Nodup)
    (hino : (fs.map (fun e => e.st.st_ino)).Nodup)
    (hp : ∀ f ∈ d.files, f.present = false)
    (hl : ∀ l ∈ d.links, l.present = false)
    (hw : d.has_not_persistent_inodes = true → ∀ f ∈ d.files, f.without_inode = true)
    (hrun : scan_disk pol bsz true d fs = .ok r1) :
    GoodCat fs r1.disk.files ∧ r1.disk.links = [] ∧
      r1.disk.has_not_persistent_inodes = d.has_not_persistent_inodes := by
  have hinv0 : Inv1 d.has_not_persistent_inodes [] d.files := by
    refine ⟨?_, by simp, ?_, ?_⟩
    · intro f hf hp'
      rw [hp f hf] at hp'
      cases hp'
    · have hfe : d.files.filter (fun f => f.present) = [] := by
        rw [List.filter_eq_nil]
        intro f hf
        simp [hp f hf]
      rw [hfe]
      exact List.Pairwise.nil
    · intro ht f hf _
      exact hw ht f hf
  simp only [scan_disk, if_true] at hrun
  cases hwalk : scan_walk pol d counters0 false [] [] fs with
  | error x =>
    rw [hwalk] at hrun
    exact Except.noConfusion hrun
  | ok w =>
    obtain ⟨d1, cnt, needw, qf, ql⟩ := w
    rw [hwalk] at hrun
    obtain ⟨hinv1, hlinks1, hflag1, hql⟩ := walk1 pol fs [] d counters0 false [] []
      (d1, cnt, needw, qf, ql) hsub hino hinv0 hwalk
    have hql' : ql = [] := hql
    subst hql'
    cases hsw : sweepFiles pol.clear_undeterminate_hash
        ⟨d1.blockarr, d1.first_free_block⟩ d1.files with
    | none =>
      have hrun2 : (match sweepFiles pol.clear_undeterminate_hash
            ⟨d1.blockarr, d1.first_free_block⟩ d1.files with
          | none => (.error .badBlockState : Except Fatal ScanDiskRes)
          | some (files1, m1, nremf, w1) =>
            let rl := sweepLinks d1.links
            let cnt1 := { cnt with remove := cnt.remove + nremf + rl.2.1 }
            let needw1 := needw || w1 || rl.2.2
            let r2 := insertQueued pol.clear_undeterminate_hash bsz files1 m1 needw1 qf
            let r3 := insertLinks rl.1 r2.2.2 []
            .ok ⟨⟨r2.1, r3.1, r2.2.1.arr, r2.2.1.ffb, d1.has_not_persistent_inodes⟩,
              cnt1, r3.2⟩) = .ok r1 := hrun
      rw [hsw] at hrun2
      exact Except.noConfusion hrun2
    | some sres =>
      obtain ⟨files1, m1, nremf, w1⟩ := sres
      have hrun2 : (match sweepFiles pol.clear_undeterminate_hash
            ⟨d1.blockarr, d1.first_free_block⟩ d1.files with
          | none => (.error .badBlockState : Except Fatal ScanDiskRes)
          | some (files1, m1, nremf, w1) =>
            let rl := sweepLinks d1.links
            let cnt1 := { cnt with remove := cnt.remove + nremf + rl.2.1 }
            let needw1 := needw || w1 || rl.2.2
            let r2 := insertQueued pol.clear_undeterminate_hash bsz files1 m1 needw1 qf
            let r3 := insertLinks rl.1 r2.2.2 []
            .ok ⟨⟨r2.1, r3.1, r2.2.1.arr, r2.2.1.ffb, d1.has_not_persistent_inodes⟩,
              cnt1, r3.2⟩) = .ok r1 := hrun
      rw [hsw] at hrun2
      have hreq := Except.ok.inj hrun2
      subst hreq
      have hfilt : files1 = d1.files.filter (fun f => f.present) :=
        sweepFiles_filter pol.clear_undeterminate_hash d1.files
          ⟨d1.blockarr, d1.first_free_block⟩ (files1, m1, nremf, w1) hsw
      obtain ⟨hI1, hI2, hI3, hI4⟩ := hinv1
      have hgood1 : GoodCat fs files1 := by
        refine ⟨?_, ?_, ?_, ?_⟩
        · intro f hf
          rw [hfilt] at hf
          have hfm := List.mem_filter.mp hf
          exact hI1 f hfm.1 (by simpa using hfm.2)
        · intro e he
          obtain ⟨f, hfm, hfp, hme⟩ := hI2 e he
          refine ⟨f, ?_, hme⟩
          rw [hfilt]
          exact List.mem_filter.mpr ⟨hfm, by simpa using hfp⟩
        · rw [hfilt]
          exact nodup_map_of_pairwise (fun f => f.inode)
            (d1.files.filter (fun f => f.present)) (hI3.imp (fun h => h.1))
        · rw [hfilt]
          exact nodup_map_of_pairwise (fun f => f.sub)
            (d1.files.filter (fun f => f.present)) (hI3.imp (fun h => h.2))
      refine ⟨?_, ?_, hflag1⟩
      · exact GoodCat_of_meta fs files1 _
          (insertQueued_meta pol.clear_undeterminate_hash bsz qf files1 m1
            (needw || w1 || (sweepLinks d1.links).2.2)) hgood1
      · have hrl : (sweepLinks d1.links).1 = [] := by
          rw [hlinks1]
          exact sweepLinks_nilres d.links hl
        exact hrl

/-- C9 (confirmed): the scan is idempotent on an unchanged filesystem.
If a first `scan_disk` run over a directory listing succeeds — starting
from any catalog whose files and links are unmarked, as `state_scan`
guarantees before scanning, and with the non-persistent-inode flag
matching the probe — then a second run over the same listing, after the
`PRESENT` flags are cleared again between runs, succeeds with
`move = restore = change = remove = insert = 0`, classifies every entry
as equal, and does not raise `need_write`.  The listing is a set of
regular files with distinct paths and distinct inodes (so no hardlinks),
matching the hardlink-free scenario of the claim. -/
theorem scan_C9 (pol : Policy) (bsz : Nat) (persistent : Bool) (d0 : Disk)
    (fs : List FsEntry) (r1 : ScanDiskRes)
    (hsub : (fs.map (fun e => e.sub)).Nodup)
    (hino : (fs.map (fun e => e.st.st_ino)).Nodup)
    (hp0 : ∀ f ∈ d0.files, f.present = false)
    (hl0 : ∀ l ∈ d0.links, l.present = false)
    (hpers : persistent = true → d0.has_not_persistent_inodes = false)
    (hrun : scan_disk pol bsz persistent d0 fs = .ok r1) :
    ∃ r2, scan_disk pol bsz persistent (clearPresent r1.disk) fs = .ok r2 ∧
      r2.cnt.move = 0 ∧ r2.cnt.restore = 0 ∧ r2.cnt.change = 0 ∧ r2.cnt.remove = 0 ∧
      r2.cnt.insert = 0 ∧ r2.cnt.equal = fs.length ∧ r2.needw = false := by
  cases persistent
  · -- non-persistent inodes: the first run starts from the wiped catalog
    have hrun' : scan_disk pol bsz true
        { d0 with has_not_persistent_inodes := true, files := d0.files.map wipeFile } fs =
        .ok r1 := hrun
    have hpE : ∀ f ∈ d0.files.map wipeFile, f.present = false := by
      intro f hf
      obtain ⟨g, hg, rfl⟩ := List.mem_map.mp hf
      exact hp0 g hg
    have hwE : (true : Bool) = true → ∀ f ∈ d0.files.map wipeFile,
        f.without_inode = true := by
      intro _ f hf
      obtain ⟨g, hg, rfl⟩ := List.mem_map.mp hf
      rfl
    obtain ⟨hgood, hlinksnil, hflageq⟩ := scan1_core pol bsz
      { d0 with has_not_persistent_inodes := true, files := d0.files.map wipeFile }
      fs r1 hsub hino hpE hl0 hwE hrun'
    refine scan2_zero pol bsz false (clearPresent r1.disk) fs ?_ ?_ hsub hino ?_ ?_
    · show r1.disk.has_not_persistent_inodes = true
      exact hflageq
    · simp [clearPresent, hlinksnil]
    · exact GoodCat_clear fs r1.disk.files hgood
    · intro f hf
      obtain ⟨g, hg, rfl⟩ := List.mem_map.mp hf
      rfl
  · -- persistent inodes: no wipe
    obtain ⟨hgood, hlinksnil, hflageq⟩ := scan1_core pol bsz d0 fs r1 hsub hino hp0 hl0
      (by
        intro h
        rw [hpers rfl] at h
        cases h) hrun
    refine scan2_zero pol bsz true (clearPresent r1.disk) fs ?_ ?_ hsub hino ?_ ?_
    · show r1.disk.has_not_persistent_inodes = false
      rw [hflageq]
      exact hpers rfl
    · simp [clearPresent, hlinksnil]
    · exact GoodCat_clear fs r1.disk.files hgood
    · intro f hf
      obtain ⟨g, hg, rfl⟩ := List.mem_map.mp hf
      rfl

/-- Concrete instance of `scan_C9`: scanning one zero-length file into an
empty catalog counts one insert, and the rescan of the resulting catalog
counts one equal and nothing else. -/
theorem scan_C9_witness :
    (([⟨"a", ⟨1, 0, 10, 20, 1⟩⟩] : List FsEntry).map (fun e => e.sub)).Nodup ∧
    (([⟨"a", ⟨1, 0, 10, 20, 1⟩⟩] : List FsEntry).map (fun e => e.st.st_ino)).Nodup ∧
    (∀ f ∈ (⟨[], [], [], 0, false⟩ : Disk).files, f.present = false) ∧
    (∀ l ∈ (⟨[], [], [], 0, false⟩ : Disk).links, l.present = false) ∧
    ((true : Bool) = true → (⟨[], [], [], 0, false⟩ : Disk).has_not_persistent_inodes = false) ∧
    scan_disk ⟨false, false⟩ 1 true ⟨[], [], [], 0, false⟩ [⟨"a", ⟨1, 0, 10, 20, 1⟩⟩] =
      .ok ⟨⟨[⟨"a", 0, 10, 20, 1, true, false, []⟩], [], [], 0, false⟩,
        ⟨0, 0, 0, 0, 0, 1⟩, true⟩ ∧
    (∃ r2, scan_disk ⟨false, false⟩ 1 true
        (clearPresent (⟨⟨[⟨"a", 0, 10, 20, 1, true, false, []⟩], [], [], 0, false⟩,
          ⟨0, 0, 0, 0, 0, 1⟩, true⟩ : ScanDiskRes).disk) [⟨"a", ⟨1, 0, 10, 20, 1⟩⟩] = .ok r2 ∧
      r2.cnt.move = 0 ∧ r2.cnt.restore = 0 ∧ r2.cnt.change = 0 ∧ r2.cnt.remove = 0 ∧
      r2.cnt.insert = 0 ∧
      r2.cnt.equal = ([⟨"a", ⟨1, 0, 10, 20, 1⟩⟩] : List FsEntry).length ∧
      r2.needw = false) := by
  refine ⟨by decide, by decide, by simp, by simp, by decide, rfl, ?_⟩
  exact scan_C9 ⟨false, false⟩ 1 true ⟨[], [], [], 0, false⟩ [⟨"a", ⟨1, 0, 10, 20, 1⟩⟩]
    ⟨⟨[⟨"a", 0, 10, 20, 1, true, false, []⟩], [], [], 0, false⟩, ⟨0, 0, 0, 0, 0, 1⟩, true⟩
    (by decide) (by decide) (by simp) (by simp) (by decide) rfl
